import Mathlib

/-!
Verification of the binary-heap priority queue implemented in `src/heap.c`
(`HeapCreate`, `HeapInsert`, `HeapExtract`, `HeapPeek`, `HeapSize`,
`HeapUpdatePriority`).

The C heap stores `void *` payloads in a contiguous array of `capacity`
slots of which the first `size` are live, together with an injected
comparison callback `cmpFn` and destructor `freeFn`.  We model:
* a payload (`void *`) as `Option β` — `none` is the `NULL` pointer,
  `some x` a non-null reference, with reference identity as equality;
* the live prefix `data[0..size-1]` as a `List (Option β)` (so `size` is
  the list length);
* `capacity` as a `Nat`;
* `cmpFn` as a pure Lean function `Option β → Option β → Int`;
* `freeFn` as an opaque stored token of an arbitrary type `γ`
  (it is never invoked by the operations under study);
* a possibly-`NULL` heap handle as `Option (Heap β γ)`;
* the single fallible allocation (`realloc` during insert growth) as an
  explicit `allocOk : Bool` argument of `HeapInsert`.
-/

namespace HeapC

/-- `GetParent` from heap.c: `(index - 1) / 2` (truncating division). -/
def GetParent (i : Nat) : Nat := (i - 1) / 2

/-- `GetLeftChild` from heap.c: `2*index + 1`. -/
def GetLeftChild (i : Nat) : Nat := 2 * i + 1

/-- `GetRightChild` from heap.c: `2*index + 2`. -/
def GetRightChild (i : Nat) : Nat := 2 * i + 2

/-- `Swap` from heap.c, lifted to the list of live slots: exchange the
payload pointers stored at positions `i` and `j`. -/
def swapL (l : List α) (i j : Nat) : List α :=
  match l[i]?, l[j]? with
  | some a, some b => (l.set i b).set j a
  | _, _ => l

@[simp] theorem length_swapL (l : List α) (i j : Nat) :
    (swapL l i j).length = l.length := by
  unfold swapL
  rcases h1 : l[i]? with _ | a <;> rcases h2 : l[j]? with _ | b <;> simp

theorem getElem?_swapL (l : List α) {i j : Nat} (hi : i < l.length)
    (hj : j < l.length) (k : Nat) :
    (swapL l i j)[k]? =
      if k = j then l[i]? else if k = i then l[j]? else l[k]? := by
  unfold swapL
  rw [List.getElem?_eq_getElem hi, List.getElem?_eq_getElem hj]
  by_cases hkj : k = j
  · subst hkj
    rw [if_pos rfl, List.getElem?_set_self (by simpa using hj)]
  · rw [if_neg hkj, List.getElem?_set_ne (fun h => hkj h.symm)]
    by_cases hki : k = i
    · subst hki
      rw [if_pos rfl, List.getElem?_set_self hi]
    · rw [if_neg hki, List.getElem?_set_ne (fun h => hki h.symm)]

theorem perm_cons_set (x : α) :
    ∀ (xs : List α) (m : Nat) (hm : m < xs.length),
      (xs[m] :: xs.set m x).Perm (x :: xs)
  | y :: ys, 0, _ => List.Perm.swap x y ys
  | y :: ys, m + 1, hm => by
    have hm' : m < ys.length := by simpa using hm
    have t1 : (ys[m] :: y :: ys.set m x).Perm (y :: ys[m] :: ys.set m x) :=
      List.Perm.swap y (ys[m]) (ys.set m x)
    have t2 : (y :: ys[m] :: ys.set m x).Perm (y :: x :: ys) :=
      (perm_cons_set x ys m hm').cons y
    have t3 : (y :: x :: ys).Perm (x :: y :: ys) := List.Perm.swap x y ys
    show (ys[m] :: y :: ys.set m x).Perm (x :: y :: ys)
    exact (t1.trans t2).trans t3

theorem perm_swapL (l : List α) (i j : Nat) : (swapL l i j).Perm l := by
  unfold swapL
  rcases h1 : l[i]? with _ | a
  · exact List.Perm.refl l
  rcases h2 : l[j]? with _ | b
  · exact List.Perm.refl l
  obtain ⟨hi, ha⟩ := List.getElem?_eq_some_iff.1 h1
  obtain ⟨hj, hb⟩ := List.getElem?_eq_some_iff.1 h2
  rcases Decidable.em (i = j) with rfl | hij
  · show ((l.set i b).set i a).Perm l
    rw [List.set_set]
    have p := perm_cons_set a l i hi
    rw [ha] at p
    exact List.Perm.cons_inv p
  · show ((l.set i b).set j a).Perm l
    have hj' : j < (l.set i b).length := by simpa using hj
    have hbj : (l.set i b)[j] = b := by
      rw [List.getElem_set_ne hij]
      exact hb
    have p1 := perm_cons_set a (l.set i b) j hj'
    rw [hbj] at p1
    have p2 := perm_cons_set b l i hi
    rw [ha] at p2
    exact List.Perm.cons_inv (p1.trans p2)

theorem mem_swapL {l : List α} {i j : Nat} {x : α} (h : x ∈ swapL l i j) :
    x ∈ l :=
  (perm_swapL l i j).mem_iff.1 h

/-- `HeapifyUp` from heap.c.  The C loop keeps a `currentIndex`; while it is
positive and the element there beats its parent under `cmpFn`, the two are
swapped and the loop continues from the parent.  Out-of-range reads cannot
occur in the C calls (the index is always `< size`); the `none` match arms
below are therefore dead, and return the list unchanged. -/
def HeapifyUp (cmp : α → α → Int) (l : List α) (i : Nat) : List α :=
  if h0 : i = 0 then l
  else
    match l[i]?, l[GetParent i]? with
    | some c, some par =>
      if 0 < cmp c par then
        HeapifyUp cmp (swapL l i (GetParent i)) (GetParent i)
      else l
    | _, _ => l
termination_by i
decreasing_by
  simp only [GetParent]
  omega

/-- The value of `extremeIndex` in the `HeapifyDown` loop body of heap.c
after the left-child inspection (step 3 of the loop): the left child if it
exists within `size` and beats the current node, else the current node. -/
def hdCand (cmp : α → α → Int) (l : List α) (i : Nat) : Nat :=
  match l[GetLeftChild i]?, l[i]? with
  | some c, some cur => if 0 < cmp c cur then GetLeftChild i else i
  | _, _ => i

/-- The value of `extremeIndex` in the `HeapifyDown` loop body of heap.c
after both child inspections (steps 3 and 4): the right child if it exists
within `size` and beats the intermediate winner `hdCand`, else `hdCand`. -/
def hdStep (cmp : α → α → Int) (l : List α) (i : Nat) : Nat :=
  match l[GetRightChild i]?, l[hdCand cmp l i]? with
  | some c, some cur => if 0 < cmp c cur then GetRightChild i else hdCand cmp l i
  | _, _ => hdCand cmp l i

theorem hdCand_cases (cmp : α → α → Int) (l : List α) (i : Nat) :
    hdCand cmp l i = i ∨
      (hdCand cmp l i = GetLeftChild i ∧ hdCand cmp l i < l.length) := by
  unfold hdCand
  rcases h1 : l[GetLeftChild i]? with _ | c1 <;> rcases h2 : l[i]? with _ | cur
  · exact Or.inl rfl
  · exact Or.inl rfl
  · exact Or.inl rfl
  · dsimp only
    split_ifs with hcmp
    · exact Or.inr ⟨rfl, (List.getElem?_eq_some_iff.1 h1).1⟩
    · exact Or.inl rfl

theorem hdStep_cases (cmp : α → α → Int) (l : List α) (i : Nat) :
    hdStep cmp l i = i ∨
      ((hdStep cmp l i = GetLeftChild i ∨ hdStep cmp l i = GetRightChild i) ∧
        hdStep cmp l i < l.length) := by
  unfold hdStep
  rcases h3 : l[GetRightChild i]? with _ | c2 <;>
    rcases h4 : l[hdCand cmp l i]? with _ | cur
  · exact (hdCand_cases cmp l i).imp id (fun h => ⟨Or.inl h.1, h.2⟩)
  · exact (hdCand_cases cmp l i).imp id (fun h => ⟨Or.inl h.1, h.2⟩)
  · exact (hdCand_cases cmp l i).imp id (fun h => ⟨Or.inl h.1, h.2⟩)
  · dsimp only
    split_ifs with hcmp
    · exact Or.inr ⟨Or.inr rfl, (List.getElem?_eq_some_iff.1 h3).1⟩
    · exact (hdCand_cases cmp l i).imp id (fun h => ⟨Or.inl h.1, h.2⟩)

theorem hdStep_ne {cmp : α → α → Int} {l : List α} {i : Nat}
    (h : hdStep cmp l i ≠ i) :
    i < hdStep cmp l i ∧ hdStep cmp l i < l.length := by
  rcases hdStep_cases cmp l i with he | ⟨he, hlt⟩
  · exact absurd he h
  · refine ⟨?_, hlt⟩
    rcases he with he | he <;> rw [he] <;>
      simp only [GetLeftChild, GetRightChild] <;> omega

/-- `HeapifyDown` from heap.c: repeatedly compute the strongest of the
current node and its existing children (`hdStep`); stop when the current
node is already the strongest, otherwise swap with the winner and
continue from its index. -/
def HeapifyDown (cmp : α → α → Int) (l : List α) (i : Nat) : List α :=
  if h : hdStep cmp l i = i then l
  else HeapifyDown cmp (swapL l i (hdStep cmp l i)) (hdStep cmp l i)
termination_by l.length - i
decreasing_by
  have := hdStep_ne h
  simp only [length_swapL]
  omega

/-- A concrete sanity check that the embedded sift routines compute. -/
example :
    HeapifyDown (fun a b : Int => a - b) [1, 5, 3] 0 = [5, 1, 3] := by
  simp [HeapifyDown, hdStep, hdCand, swapL, GetLeftChild, GetRightChild]

example :
    HeapifyUp (fun a b : Int => a - b) [5, 2, 9] 2 = [9, 2, 5] := by
  simp [HeapifyUp, GetParent, swapL]

/-! ## The heap-order invariant and oracle consistency -/

/-- The heap-order invariant, phrased exactly as the spec does: for every
index `i` with `0 < i < size`, `cmpFn` applied to (element at `i`, element
at `parent(i)`) does not return a positive value. -/
def HeapOrderedCmp (cmp : α → α → Int) (l : List α) : Prop :=
  ∀ i a b, 0 < i → l[i]? = some a → l[GetParent i]? = some b → cmp a b ≤ 0

/-- Executable version of `HeapOrderedCmp` for concrete computations. -/
def heapOrdB (cmp : α → α → Int) (l : List α) : Bool :=
  (List.range l.length).all fun i =>
    if i = 0 then true
    else
      match l[i]?, l[GetParent i]? with
      | some a, some b => decide (cmp a b ≤ 0)
      | _, _ => true

theorem heapOrdB_iff {cmp : α → α → Int} {l : List α} :
    heapOrdB cmp l = true ↔ HeapOrderedCmp cmp l := by
  unfold heapOrdB HeapOrderedCmp
  rw [List.all_eq_true]
  constructor
  · intro h i a b hi ha hb
    have hil : i < l.length := (List.getElem?_eq_some_iff.1 ha).1
    have := h i (by simpa using hil)
    rw [if_neg (by omega)] at this
    rw [ha, hb] at this
    exact of_decide_eq_true this
  · intro h i hi
    by_cases h0 : i = 0
    · simp [h0]
    · rw [if_neg h0]
      rcases ha : l[i]? with _ | a
      · rfl
      · rcases hb : l[GetParent i]? with _ | b
        · rfl
        · exact decide_eq_true (h i a b (by omega) ha hb)

/-- A total-order-consistent comparison oracle: comparisons agree with an
integer rank function — `cmp a b` is positive exactly when `a` ranks
strictly above `b`.  This is the reading of the spec's oracle contract
(positive means the first argument has strictly higher priority). -/
def RankConsistent (cmp : α → α → Int) (rank : α → Int) : Prop :=
  ∀ a b, 0 < cmp a b ↔ rank b < rank a

theorem RankConsistent.nonpos {cmp : α → α → Int} {rank : α → Int}
    (hc : RankConsistent cmp rank) (a b : α) :
    cmp a b ≤ 0 ↔ rank a ≤ rank b := by
  constructor
  · intro h
    by_contra hlt
    rw [Int.not_le] at hlt
    have := (hc a b).2 hlt
    omega
  · intro h
    by_contra hpos
    rw [Int.not_le] at hpos
    have := (hc a b).1 hpos
    omega

/-- Heap order relative to a rank function (used in the proofs; equivalent
to `HeapOrderedCmp` for a rank-consistent oracle by `hOrdR_iff`). -/
def HOrdR (rank : α → Int) (l : List α) : Prop :=
  ∀ i a b, 0 < i → l[i]? = some a → l[GetParent i]? = some b →
    rank a ≤ rank b

theorem hOrdR_iff {cmp : α → α → Int} {rank : α → Int}
    (hc : RankConsistent cmp rank) {l : List α} :
    HeapOrderedCmp cmp l ↔ HOrdR rank l := by
  unfold HeapOrderedCmp HOrdR
  constructor <;> intro h i a b hi ha hb
  · exact (hc.nonpos a b).1 (h i a b hi ha hb)
  · exact (hc.nonpos a b).2 (h i a b hi ha hb)

/-! ## The heap structure and the public API of heap.c -/

/-- The `struct Heap_t` of heap.c: the live slots `data[0..size-1]`
(as a list, so `size` is implicit as the length), the physical `capacity`,
the comparison callback and the stored destructor token. -/
structure Heap (β : Type u) (γ : Type v) where
  data : List (Option β)
  capacity : Nat
  cmpFn : Option β → Option β → Int
  freeFn : γ

/-- `HeapCreate` from heap.c: fails when `cmpFn` is `NULL`; otherwise
normalizes a non-positive capacity hint to 16 and returns an empty heap
storing the two callbacks.  (The two `malloc` calls are assumed to
succeed; allocation failure at creation is not modelled.) -/
def HeapCreate (capacity : Int) (cmpFn : Option (Option β → Option β → Int))
    (freeFn : γ) : Option (Heap β γ) :=
  match cmpFn with
  | none => none
  | some f =>
    some { data := []
           capacity := if 0 < capacity then capacity.toNat else 16
           cmpFn := f
           freeFn := freeFn }

/-- `HeapInsert` from heap.c.  `allocOk` tells whether the `realloc` in
the full-heap growth path succeeds; it is inspected only when the heap is
full (`size == capacity`).  On the success paths the payload is placed in
the first free slot (index = old size) and sifted up. -/
def HeapInsert (mh : Option (Heap β γ)) (d : Option β) (allocOk : Bool) :
    Bool × Option (Heap β γ) :=
  match mh with
  | none => (false, none)
  | some h =>
    if h.data.length = h.capacity then
      if allocOk then
        (true, some { h with
          capacity := 2 * h.capacity
          data := HeapifyUp h.cmpFn (h.data ++ [d]) h.data.length })
      else (false, some h)
    else
      (true, some { h with
        data := HeapifyUp h.cmpFn (h.data ++ [d]) h.data.length })

/-- `HeapExtract` from heap.c: `NULL` for an absent or empty heap;
otherwise save the root, move the last element to index 0, shrink the
live region by one, sift down from the root when elements remain, and
return the saved root. -/
def HeapExtract (mh : Option (Heap β γ)) :
    Option β × Option (Heap β γ) :=
  match mh with
  | none => (none, none)
  | some h =>
    match h.data with
    | [] => (none, some h)
    | x :: xs =>
      let m := (xs.getLastD x :: xs).dropLast
      (x, some { h with
        data := if 0 < m.length then HeapifyDown h.cmpFn m 0 else m })

/-- `HeapPeek` from heap.c: the root payload, `NULL` when the heap is
absent or empty.  The C function only reads `data[0]`; it has no state
output because it performs no mutation. -/
def HeapPeek (mh : Option (Heap β γ)) : Option β :=
  match mh with
  | none => none
  | some h =>
    match h.data with
    | [] => none
    | x :: _ => x

/-- `HeapSize` from heap.c: `-1` for an absent handle, else the number of
live elements. -/
def HeapSize (mh : Option (Heap β γ)) : Int :=
  match mh with
  | none => -1
  | some h => h.data.length

/-- `HeapUpdatePriority` from heap.c: fails on an absent handle, a `NULL`
payload reference, or an empty heap; then scans the live slots for the
first one holding the identical reference (pointer identity, i.e.
equality of references, not an oracle call); fails if absent; otherwise
sifts up and then sifts down from the found index. -/
def HeapUpdatePriority [DecidableEq β] (mh : Option (Heap β γ))
    (d : Option β) : Bool × Option (Heap β γ) :=
  match mh with
  | none => (false, none)
  | some h =>
    match d with
    | none => (false, some h)
    | some _ =>
      if h.data.length = 0 then (false, some h)
      else
        match h.data.findIdx? (· = d) with
        | none => (false, some h)
        | some t =>
          (true, some { h with
            data := HeapifyDown h.cmpFn (HeapifyUp h.cmpFn h.data t) t })

/-! ## Index arithmetic facts -/

theorem GetParent_lt {i : Nat} (hi : 0 < i) : GetParent i < i := by
  unfold GetParent; omega

theorem GetParent_left (p : Nat) : GetParent (GetLeftChild p) = p := by
  unfold GetParent GetLeftChild; omega

theorem GetParent_right (p : Nat) : GetParent (GetRightChild p) = p := by
  unfold GetParent GetRightChild; omega

theorem child_of_parent {j : Nat} (hj : 0 < j) :
    j = GetLeftChild (GetParent j) ∨ j = GetRightChild (GetParent j) := by
  unfold GetParent GetLeftChild GetRightChild; omega

theorem GetLeftChild_pos (p : Nat) : 0 < GetLeftChild p := by
  unfold GetLeftChild; omega

theorem GetRightChild_pos (p : Nat) : 0 < GetRightChild p := by
  unfold GetRightChild; omega

/-! ## Sift-up restores the heap order -/

/-- Invariant of the `HeapifyUp` loop, relative to a rank function: every
parent edge holds except possibly the one out of `j`, and (when `j` is
not the root) both potential children of `j` are ranked no higher than
`j`'s parent, so that the parent may move down into `j`'s slot. -/
def UpOkR (rank : α → Int) (l : List α) (j : Nat) : Prop :=
  (∀ i a b, 0 < i → i ≠ j → l[i]? = some a → l[GetParent i]? = some b →
    rank a ≤ rank b) ∧
  (∀ c a b, 0 < j → (c = GetLeftChild j ∨ c = GetRightChild j) →
    l[c]? = some a → l[GetParent j]? = some b → rank a ≤ rank b)

theorem upOk_step {rank : α → Int} {l : List α} {j : Nat}
    (hU : UpOkR rank l j) (hj : 0 < j)
    {c par : α} (hjc : l[j]? = some c) (hpp : l[GetParent j]? = some par)
    (hlt : rank par < rank c) :
    UpOkR rank (swapL l j (GetParent j)) (GetParent j) := by
  have hjl : j < l.length := (List.getElem?_eq_some_iff.1 hjc).1
  have hpj : GetParent j < j := GetParent_lt hj
  have hpl : GetParent j < l.length := lt_trans hpj hjl
  have hacc := getElem?_swapL l hjl hpl
  constructor
  · intro i a b hi hip hia hib
    rw [hacc i, if_neg hip] at hia
    rcases Decidable.em (i = j) with rfl | hij
    · rw [if_pos rfl, hpp] at hia
      rw [hacc (GetParent i), if_pos rfl, hjc] at hib
      cases hia; cases hib
      exact le_of_lt hlt
    · rw [if_neg hij] at hia
      rw [hacc (GetParent i)] at hib
      rcases Decidable.em (GetParent i = GetParent j) with hgp | hgp
      · rw [if_pos hgp, hjc] at hib
        cases hib
        have h1 := hU.1 i a par hi hij hia (hgp ▸ hpp)
        exact le_trans h1 (le_of_lt hlt)
      · rw [if_neg hgp] at hib
        rcases Decidable.em (GetParent i = j) with hgj | hgj
        · rw [if_pos hgj, hpp] at hib
          cases hib
          rcases child_of_parent hi with hch | hch <;> rw [hgj] at hch
          · exact hU.2 i a par hj (Or.inl hch) hia hpp
          · exact hU.2 i a par hj (Or.inr hch) hia hpp
        · rw [if_neg hgj] at hib
          exact hU.1 i a b hi hij hia hib
  · intro x a b hp0 hxor hxa hgb
    have hxpos : 0 < x := by
      rcases hxor with rfl | rfl
      · exact GetLeftChild_pos _
      · exact GetRightChild_pos _
    have hxp : GetParent x = GetParent j := by
      rcases hxor with rfl | rfl
      · exact GetParent_left _
      · exact GetParent_right _
    have hxnep : x ≠ GetParent j := by
      have := GetParent_lt hxpos
      omega
    have hgg : GetParent (GetParent j) < GetParent j := GetParent_lt hp0
    rw [hacc (GetParent (GetParent j)), if_neg (by omega), if_neg (by omega)] at hgb
    rw [hacc x, if_neg hxnep] at hxa
    rcases Decidable.em (x = j) with rfl | hxj
    · rw [if_pos rfl, hpp] at hxa
      cases hxa
      exact hU.1 (GetParent x) par b hp0 (by omega) hpp hgb
    · rw [if_neg hxj] at hxa
      have h1 := hU.1 x a par hxpos hxj hxa (hxp ▸ hpp)
      have h2 := hU.1 (GetParent j) par b hp0 (by omega) hpp hgb
      exact le_trans h1 h2

theorem heapifyUp_ordered {cmp : α → α → Int} {rank : α → Int}
    (hc : RankConsistent cmp rank) :
    ∀ (j : Nat) (l : List α), UpOkR rank l j →
      HOrdR rank (HeapifyUp cmp l j) := by
  intro j
  induction j using Nat.strong_induction_on with
  | _ j ih =>
    intro l hU
    rw [HeapifyUp]
    by_cases h0 : j = 0
    · rw [dif_pos h0]
      intro i a b hi hia hib
      exact hU.1 i a b hi (by omega) hia hib
    · rw [dif_neg h0]
      rcases hjc : l[j]? with _ | c
      · intro i a b hi hia hib
        rcases Decidable.em (i = j) with rfl | hij
        · rw [hjc] at hia; cases hia
        · exact hU.1 i a b hi hij hia hib
      · rcases hpp : l[GetParent j]? with _ | par
        · have h1 : j < l.length := (List.getElem?_eq_some_iff.1 hjc).1
          have h2 : l.length ≤ GetParent j := List.getElem?_eq_none_iff.1 hpp
          have := GetParent_lt (Nat.pos_of_ne_zero h0)
          omega
        · dsimp only
          split_ifs with hcmp
          · exact ih (GetParent j) (GetParent_lt (by omega)) _
              (upOk_step hU (by omega) hjc hpp ((hc c par).1 hcmp))
          · intro i a b hi hia hib
            rcases Decidable.em (i = j) with rfl | hij
            · rw [hjc] at hia
              rw [hpp] at hib
              cases hia; cases hib
              exact (hc.nonpos c par).1 (Int.not_lt.1 hcmp)
            · exact hU.1 i a b hi hij hia hib

theorem heapifyUp_perm (cmp : α → α → Int) :
    ∀ (j : Nat) (l : List α), (HeapifyUp cmp l j).Perm l := by
  intro j
  induction j using Nat.strong_induction_on with
  | _ j ih =>
    intro l
    rw [HeapifyUp]
    by_cases h0 : j = 0
    · rw [dif_pos h0]
    · rw [dif_neg h0]
      rcases hjc : l[j]? with _ | c
      · exact List.Perm.refl l
      · rcases hpp : l[GetParent j]? with _ | par
        · exact List.Perm.refl l
        · dsimp only
          split_ifs with hcmp
          · exact (ih (GetParent j) (GetParent_lt (by omega)) _).trans
              (perm_swapL l j (GetParent j))
          · exact List.Perm.refl l

/-! ## Sift-down restores the heap order -/

theorem hdCand_specR {cmp : α → α → Int} {rank : α → Int}
    (hc : RankConsistent cmp rank) (l : List α) (j : Nat) :
    (hdCand cmp l j = j ∧
      ∀ a b, l[GetLeftChild j]? = some a → l[j]? = some b → rank a ≤ rank b)
    ∨ (∃ a b, hdCand cmp l j = GetLeftChild j ∧
        l[GetLeftChild j]? = some a ∧ l[j]? = some b ∧ rank b < rank a) := by
  unfold hdCand
  rcases h1 : l[GetLeftChild j]? with _ | c1
  · exact Or.inl ⟨rfl, fun a b ha _ => by cases ha⟩
  · rcases h2 : l[j]? with _ | cur
    · exact Or.inl ⟨rfl, fun a b _ hb => by cases hb⟩
    · dsimp only
      split_ifs with hcmp
      · exact Or.inr ⟨c1, cur, rfl, rfl, rfl, (hc c1 cur).1 hcmp⟩
      · refine Or.inl ⟨rfl, fun a b ha hb => ?_⟩
        cases ha; cases hb
        exact (hc.nonpos c1 cur).1 (Int.not_lt.1 hcmp)

theorem hdStep_specR {cmp : α → α → Int} {rank : α → Int}
    (hc : RankConsistent cmp rank) (l : List α) (j : Nat) :
    (hdStep cmp l j = j ∧
      ∀ c a b, (c = GetLeftChild j ∨ c = GetRightChild j) →
        l[c]? = some a → l[j]? = some b → rank a ≤ rank b)
    ∨ (∃ a b,
        (hdStep cmp l j = GetLeftChild j ∨ hdStep cmp l j = GetRightChild j) ∧
        l[hdStep cmp l j]? = some a ∧ l[j]? = some b ∧ rank b < rank a ∧
        ∀ o v, (o = GetLeftChild j ∨ o = GetRightChild j) →
          o ≠ hdStep cmp l j → l[o]? = some v → rank v ≤ rank a) := by
  have hlr : GetLeftChild j ≠ GetRightChild j := by
    unfold GetLeftChild GetRightChild; omega
  rcases hdCand_specR hc l j with ⟨he1, hfact⟩ | ⟨a1, b1, he1, ha1, hb1, hlt1⟩
  · unfold hdStep
    rw [he1]
    rcases h3 : l[GetRightChild j]? with _ | c2
    · refine Or.inl ⟨rfl, fun c a b hco ha hb => ?_⟩
      rcases hco with rfl | rfl
      · exact hfact a b ha hb
      · rw [h3] at ha; cases ha
    · rcases h2 : l[j]? with _ | cur
      · exact Or.inl ⟨rfl, fun c a b hco ha hb => by cases hb⟩
      · dsimp only
        split_ifs with hcmp
        · refine Or.inr ⟨c2, cur, Or.inr rfl, h3, rfl, (hc c2 cur).1 hcmp, ?_⟩
          intro o v hoor hone hov
          rcases hoor with rfl | rfl
          · exact le_trans (hfact v cur hov h2) (le_of_lt ((hc c2 cur).1 hcmp))
          · exact absurd rfl hone
        · refine Or.inl ⟨rfl, fun c a b hco ha hb => ?_⟩
          cases hb
          rcases hco with rfl | rfl
          · exact hfact a cur ha h2
          · rw [h3] at ha
            cases ha
            exact (hc.nonpos c2 cur).1 (Int.not_lt.1 hcmp)
  · unfold hdStep
    rw [he1, ha1]
    rcases h3 : l[GetRightChild j]? with _ | c2
    · refine Or.inr ⟨a1, b1, Or.inl rfl, ha1, hb1, hlt1, ?_⟩
      intro o v hoor hone hov
      rcases hoor with rfl | rfl
      · exact absurd rfl hone
      · rw [h3] at hov; cases hov
    · dsimp only
      split_ifs with hcmp
      · refine Or.inr ⟨c2, b1, Or.inr rfl, h3, hb1,
          lt_trans hlt1 ((hc c2 a1).1 hcmp), ?_⟩
        intro o v hoor hone hov
        rcases hoor with rfl | rfl
        · rw [ha1] at hov; cases hov
          exact le_of_lt ((hc c2 a1).1 hcmp)
        · exact absurd rfl hone
      · refine Or.inr ⟨a1, b1, Or.inl rfl, ha1, hb1, hlt1, ?_⟩
        intro o v hoor hone hov
        rcases hoor with rfl | rfl
        · exact absurd rfl hone
        · rw [h3] at hov; cases hov
          exact (hc.nonpos c2 a1).1 (Int.not_lt.1 hcmp)

/-- Invariant of the `HeapifyDown` loop, relative to a rank function:
every parent edge holds except possibly the edges into `j` from its
children, and (when `j` is not the root) `j` and both its potential
children are ranked no higher than `j`'s parent. -/
def DownOkR (rank : α → Int) (l : List α) (j : Nat) : Prop :=
  (∀ i a b, 0 < i → GetParent i ≠ j → l[i]? = some a →
    l[GetParent i]? = some b → rank a ≤ rank b) ∧
  (∀ x a b, 0 < j → (x = j ∨ x = GetLeftChild j ∨ x = GetRightChild j) →
    l[x]? = some a → l[GetParent j]? = some b → rank a ≤ rank b)

theorem downOk_step {cmp : α → α → Int} {rank : α → Int}
    (hc : RankConsistent cmp rank) {l : List α} {j : Nat}
    (hD : DownOkR rank l j) (hne : hdStep cmp l j ≠ j) :
    DownOkR rank (swapL l j (hdStep cmp l j)) (hdStep cmp l j) := by
  rcases hdStep_specR hc l j with ⟨he, _⟩ | ⟨ev, jv, hech, hev, hjv, hlt, hoth⟩
  · exact absurd he hne
  set e := hdStep cmp l j with hedef
  have hpe : GetParent e = j := by
    rcases hech with he | he <;> rw [he]
    · exact GetParent_left j
    · exact GetParent_right j
  have hje : j < e := by
    rcases hech with he | he <;> rw [he] <;>
      simp only [GetLeftChild, GetRightChild] <;> omega
  have hjl : j < l.length := (List.getElem?_eq_some_iff.1 hjv).1
  have hel : e < l.length := (List.getElem?_eq_some_iff.1 hev).1
  have hacc := getElem?_swapL l hjl hel
  constructor
  · intro i a b hi hpine hia hib
    rcases Decidable.em (i = e) with rfl | hie
    · rw [hacc e, if_pos rfl, hjv] at hia
      rw [hpe, hacc j, if_neg (by omega), if_pos rfl, hev] at hib
      cases hia; cases hib
      exact le_of_lt hlt
    · rcases Decidable.em (GetParent i = j) with hgi | hgi
      · have hch := child_of_parent hi
        rw [hgi] at hch
        have hiej : i ≠ j := by
          rcases hch with hch | hch <;> rw [hch] <;>
            simp only [GetLeftChild, GetRightChild] <;> omega
        rw [hacc i, if_neg hie, if_neg hiej] at hia
        rw [hgi, hacc j, if_neg (by omega), if_pos rfl, hev] at hib
        cases hib
        exact hoth i a (by rcases hch with h | h; exact Or.inl h; exact Or.inr h)
          hie hia
      · rcases Decidable.em (i = j) with rfl | hij
        · rw [hacc i, if_neg (by omega), if_pos rfl, hev] at hia
          cases hia
          have hgil : GetParent i < i := GetParent_lt hi
          rw [hacc (GetParent i), if_neg hpine, if_neg (by omega)] at hib
          exact hD.2 e ev b hi
            (by rcases hech with h | h
                · exact Or.inr (Or.inl h)
                · exact Or.inr (Or.inr h)) hev hib
        · rw [hacc i, if_neg hie, if_neg hij] at hia
          rw [hacc (GetParent i), if_neg hpine, if_neg hgi] at hib
          exact hD.1 i a b hi hgi hia hib
  · intro x a b he0 hxor hxa hgb
    rw [hpe] at hgb
    rw [hacc j, if_neg (by omega), if_pos rfl, hev] at hgb
    cases hgb
    rcases Decidable.em (x = e) with rfl | hxe
    · rw [hacc e, if_pos rfl, hjv] at hxa
      cases hxa
      exact le_of_lt hlt
    · have hxbig : e < x := by
        rcases hxor with h | h | h
        · exact absurd h hxe
        · rw [h]; simp only [GetLeftChild]; omega
        · rw [h]; simp only [GetRightChild]; omega
      have hxj : x ≠ j := by omega
      rw [hacc x, if_neg hxe, if_neg hxj] at hxa
      have hgx : GetParent x = e := by
        rcases hxor with h | h | h
        · exact absurd h hxe
        · rw [h]; exact GetParent_left e
        · rw [h]; exact GetParent_right e
      exact hD.1 x a ev (by omega) (by rw [hgx]; omega) hxa (by rw [hgx]; exact hev)

theorem heapifyDown_ordered_aux {cmp : α → α → Int} {rank : α → Int}
    (hc : RankConsistent cmp rank) :
    ∀ (n : Nat) (l : List α) (j : Nat), l.length ≤ j + n →
      DownOkR rank l j → HOrdR rank (HeapifyDown cmp l j) := by
  intro n
  induction n with
  | zero =>
    intro l j hlen hD
    have he : hdStep cmp l j = j := by
      rcases hdStep_cases cmp l j with h | ⟨_, hlt⟩
      · exact h
      · have := hdStep_ne (by omega : hdStep cmp l j ≠ j)
        omega
    rw [HeapifyDown, dif_pos he]
    intro i a b hi hia hib
    have hil : i < l.length := (List.getElem?_eq_some_iff.1 hia).1
    have := GetParent_lt hi
    exact hD.1 i a b hi (by omega) hia hib
  | succ n ih =>
    intro l j hlen hD
    rw [HeapifyDown]
    by_cases he : hdStep cmp l j = j
    · rw [dif_pos he]
      intro i a b hi hia hib
      rcases Decidable.em (GetParent i = j) with hgi | hgi
      · rcases hdStep_specR hc l j with ⟨_, hfact⟩ | ⟨ev, jv, hech, _, _, _, _⟩
        · have hch := child_of_parent hi
          rw [hgi] at hch hib
          exact hfact i a b (by rcases hch with h | h; exact Or.inl h; exact Or.inr h) hia hib
        · rcases hech with h | h <;> rw [he] at h <;>
            simp only [GetLeftChild, GetRightChild] at h <;> omega
      · exact hD.1 i a b hi hgi hia hib
    · rw [dif_neg he]
      have hst := hdStep_ne he
      apply ih
      · simp only [length_swapL]; omega
      · exact downOk_step hc hD he

theorem heapifyDown_ordered {cmp : α → α → Int} {rank : α → Int}
    (hc : RankConsistent cmp rank) {l : List α} {j : Nat}
    (hD : DownOkR rank l j) : HOrdR rank (HeapifyDown cmp l j) :=
  heapifyDown_ordered_aux hc l.length l j (by omega) hD

theorem heapifyDown_perm_aux (cmp : α → α → Int) :
    ∀ (n : Nat) (l : List α) (j : Nat), l.length ≤ j + n →
      (HeapifyDown cmp l j).Perm l := by
  intro n
  induction n with
  | zero =>
    intro l j hlen
    have he : hdStep cmp l j = j := by
      rcases hdStep_cases cmp l j with h | ⟨_, hlt⟩
      · exact h
      · have := hdStep_ne (by omega : hdStep cmp l j ≠ j)
        omega
    rw [HeapifyDown, dif_pos he]
  | succ n ih =>
    intro l j hlen
    rw [HeapifyDown]
    by_cases he : hdStep cmp l j = j
    · rw [dif_pos he]
    · rw [dif_neg he]
      have hst := hdStep_ne he
      exact (ih _ _ (by simp only [length_swapL]; omega)).trans
        (perm_swapL l j (hdStep cmp l j))

theorem heapifyDown_perm (cmp : α → α → Int) (l : List α) (j : Nat) :
    (HeapifyDown cmp l j).Perm l :=
  heapifyDown_perm_aux cmp l.length l j (by omega)

/-! ## No-op characterizations on an already ordered heap -/

theorem heapifyDown_of_ordered {cmp : α → α → Int} {rank : α → Int}
    (hc : RankConsistent cmp rank) {l : List α} (ho : HOrdR rank l)
    (j : Nat) : HeapifyDown cmp l j = l := by
  have he : hdStep cmp l j = j := by
    rcases hdStep_specR hc l j with ⟨h, _⟩ | ⟨ev, jv, hech, hev, hjv, hlt, _⟩
    · exact h
    · have hpe : GetParent (hdStep cmp l j) = j := by
        rcases hech with h | h <;> rw [h]
        · exact GetParent_left j
        · exact GetParent_right j
      have hepos : 0 < hdStep cmp l j := by
        rcases hech with h | h <;> rw [h]
        · exact GetLeftChild_pos j
        · exact GetRightChild_pos j
      have := ho (hdStep cmp l j) ev jv hepos hev (by rw [hpe]; exact hjv)
      omega
  rw [HeapifyDown, dif_pos he]

theorem heapifyUp_noop_zero (cmp : α → α → Int) (l : List α) :
    HeapifyUp cmp l 0 = l := by
  rw [HeapifyUp, dif_pos rfl]

theorem heapifyUp_noop {cmp : α → α → Int} {l : List α} {j : Nat}
    {c par : α} (hjc : l[j]? = some c) (hpp : l[GetParent j]? = some par)
    (hcmp : cmp c par ≤ 0) : HeapifyUp cmp l j = l := by
  by_cases h0 : j = 0
  · rw [h0]; exact heapifyUp_noop_zero cmp l
  · rw [HeapifyUp, dif_neg h0, hjc, hpp]
    dsimp only
    rw [if_neg (Int.not_lt.2 hcmp)]

/-- In a rank-ordered heap every element ranks at most the root. -/
theorem root_le {rank : α → Int} {l : List α} (ho : HOrdR rank l) :
    ∀ (i : Nat) (a r : α), l[i]? = some a → l[0]? = some r →
      rank a ≤ rank r := by
  intro i
  induction i using Nat.strong_induction_on with
  | _ i ih =>
    intro a r hia h0
    rcases Nat.eq_zero_or_pos i with rfl | hi
    · rw [hia] at h0; cases h0; exact le_refl _
    · have hil : i < l.length := (List.getElem?_eq_some_iff.1 hia).1
      have hpl : GetParent i < l.length := lt_trans (GetParent_lt hi) hil
      have hpar := List.getElem?_eq_getElem hpl
      have h1 := ho i a (l[GetParent i]) hi hia hpar
      have h2 := ih (GetParent i) (GetParent_lt hi) (l[GetParent i]) r hpar h0
      exact le_trans h1 h2

/-! ## Establishing the loop invariants at the call sites -/

/-- After appending a new element at the first free slot (`HeapInsert`),
the sift-up invariant holds at the new index. -/
theorem upOk_of_append {rank : α → Int} {l : List α} (ho : HOrdR rank l)
    (d : α) : UpOkR rank (l ++ [d]) l.length := by
  constructor
  · intro i a b hi hne hia hib
    have hil : i < (l ++ [d]).length := (List.getElem?_eq_some_iff.1 hia).1
    have hil' : i < l.length := by
      simp only [List.length_append, List.length_singleton] at hil
      omega
    rw [List.getElem?_append_left hil'] at hia
    rw [List.getElem?_append_left (lt_of_le_of_lt (Nat.le_of_lt_succ
      (Nat.lt_succ_of_lt (GetParent_lt hi))) (by omega))] at hib
    exact ho i a b hi hia hib
  · intro c a b hj hcor hca hpb
    have hcl : c < (l ++ [d]).length := (List.getElem?_eq_some_iff.1 hca).1
    rcases hcor with rfl | rfl <;>
      simp only [GetLeftChild, GetRightChild, List.length_append,
        List.length_singleton] at hcl <;> omega

/-- After `HeapExtract` moves the last live element to the root, the
sift-down invariant holds at the root. -/
theorem downOk_extract {rank : α → Int} {x : α} {xs : List α}
    (ho : HOrdR rank (x :: xs)) :
    DownOkR rank ((xs.getLastD x :: xs).dropLast) 0 := by
  have hmk : ∀ k, 0 < k → k < xs.length →
      ((xs.getLastD x :: xs).dropLast)[k]? = (x :: xs)[k]? := by
    intro k hk hkl
    rw [List.getElem?_dropLast, if_pos (by simp; omega)]
    rcases Nat.exists_eq_add_of_lt hk with ⟨k', rfl⟩
    simp only [Nat.add_comm 0 k', List.getElem?_cons_succ]
  constructor
  · intro i a b hi hpne hia hib
    have him : i < ((xs.getLastD x :: xs).dropLast).length :=
      (List.getElem?_eq_some_iff.1 hia).1
    have hil : i < xs.length := by simpa using him
    have hp0 : 0 < GetParent i := Nat.pos_of_ne_zero hpne
    have hpl : GetParent i < i := GetParent_lt hi
    rw [hmk i hi hil] at hia
    rw [hmk (GetParent i) hp0 (by omega)] at hib
    exact ho i a b hi hia hib
  · intro x' a b h0 _ _ _
    exact absurd h0 (lt_irrefl 0)

/-! ## Operation-level branch lemmas -/

theorem heapInsert_full_fail {h : Heap β γ} (hfull : h.data.length = h.capacity)
    (d : Option β) : HeapInsert (some h) d false = (false, some h) := by
  unfold HeapInsert
  dsimp only
  rw [if_pos hfull]
  rfl

theorem heapInsert_full_ok {h : Heap β γ} (hfull : h.data.length = h.capacity)
    (d : Option β) :
    HeapInsert (some h) d true = (true, some { h with
      capacity := 2 * h.capacity
      data := HeapifyUp h.cmpFn (h.data ++ [d]) h.data.length }) := by
  unfold HeapInsert
  dsimp only
  rw [if_pos hfull]
  rfl

theorem heapInsert_notfull {h : Heap β γ} (hnf : h.data.length ≠ h.capacity)
    (d : Option β) (ok : Bool) :
    HeapInsert (some h) d ok = (true, some { h with
      data := HeapifyUp h.cmpFn (h.data ++ [d]) h.data.length }) := by
  unfold HeapInsert
  dsimp only
  rw [if_neg hnf]

/-- All outcomes of a successful-handle `HeapInsert` in one statement. -/
theorem heapInsert_out {h : Heap β γ} {d : Option β} {ok b : Bool}
    {h' : Heap β γ} (he : HeapInsert (some h) d ok = (b, some h')) :
    (b = true ∧ h'.cmpFn = h.cmpFn ∧ h'.freeFn = h.freeFn ∧
      h'.data = HeapifyUp h.cmpFn (h.data ++ [d]) h.data.length ∧
      ((h.data.length = h.capacity ∧ h'.capacity = 2 * h.capacity) ∨
        (h.data.length ≠ h.capacity ∧ h'.capacity = h.capacity))) ∨
    (b = false ∧ h' = h) := by
  by_cases hfull : h.data.length = h.capacity
  · cases ok
    · rw [heapInsert_full_fail hfull] at he
      cases he
      exact Or.inr ⟨rfl, rfl⟩
    · rw [heapInsert_full_ok hfull] at he
      cases he
      exact Or.inl ⟨rfl, rfl, rfl, rfl, Or.inl ⟨hfull, rfl⟩⟩
  · rw [heapInsert_notfull hfull] at he
    cases he
    exact Or.inl ⟨rfl, rfl, rfl, rfl, Or.inr ⟨hfull, rfl⟩⟩

theorem heapExtract_nil {h : Heap β γ} (hd : h.data = []) :
    HeapExtract (some h) = (none, some h) := by
  unfold HeapExtract
  dsimp only
  rw [hd]

theorem heapExtract_cons {h : Heap β γ} {x : Option β} {xs : List (Option β)}
    (hd : h.data = x :: xs) :
    HeapExtract (some h) = (x, some { h with
      data := if 0 < ((xs.getLastD x :: xs).dropLast).length
        then HeapifyDown h.cmpFn ((xs.getLastD x :: xs).dropLast) 0
        else (xs.getLastD x :: xs).dropLast }) := by
  unfold HeapExtract
  dsimp only
  rw [hd]

theorem heapUpdate_absent [DecidableEq β] (d : Option β) :
    HeapUpdatePriority (none : Option (Heap β γ)) d = (false, none) := rfl

theorem heapUpdate_null [DecidableEq β] (h : Heap β γ) :
    HeapUpdatePriority (some h) none = (false, some h) := rfl

theorem heapUpdate_empty [DecidableEq β] {h : Heap β γ} (hd : h.data = [])
    (d : Option β) : HeapUpdatePriority (some h) d = (false, some h) := by
  unfold HeapUpdatePriority
  dsimp only
  cases d
  · rfl
  · rw [if_pos (by rw [hd]; rfl)]

theorem heapUpdate_notfound [DecidableEq β] {h : Heap β γ} {x : β}
    (hnf : h.data.findIdx? (· = some x) = none) :
    HeapUpdatePriority (some h) (some x) = (false, some h) := by
  unfold HeapUpdatePriority
  dsimp only
  by_cases hz : h.data.length = 0
  · rw [if_pos hz]
  · rw [if_neg hz, hnf]

theorem heapUpdate_found [DecidableEq β] {h : Heap β γ} {x : β} {t : Nat}
    (hf : h.data.findIdx? (· = some x) = some t) :
    HeapUpdatePriority (some h) (some x) = (true, some { h with
      data := HeapifyDown h.cmpFn (HeapifyUp h.cmpFn h.data t) t }) := by
  unfold HeapUpdatePriority
  dsimp only
  have hne : h.data.length ≠ 0 := by
    intro hz
    rw [List.length_eq_zero] at hz
    rw [hz] at hf
    simp at hf
  rw [if_neg hne, hf]

/-! ## Order preservation of the public operations -/

theorem heapInsert_ordered {h : Heap β γ} {rank : Option β → Int}
    (hc : RankConsistent h.cmpFn rank) (ho : HOrdR rank h.data)
    {d : Option β} {ok b : Bool} {h' : Heap β γ}
    (he : HeapInsert (some h) d ok = (b, some h')) : HOrdR rank h'.data := by
  rcases heapInsert_out he with ⟨_, _, _, hdata, _⟩ | ⟨_, rfl⟩
  · rw [hdata]
    exact heapifyUp_ordered hc _ _ (upOk_of_append ho d)
  · exact ho

theorem heapExtract_ordered {h : Heap β γ} {rank : Option β → Int}
    (hc : RankConsistent h.cmpFn rank) (ho : HOrdR rank h.data)
    {v : Option β} {h' : Heap β γ}
    (he : HeapExtract (some h) = (v, some h')) : HOrdR rank h'.data := by
  rcases hdd : h.data with _ | ⟨x, xs⟩
  · rw [heapExtract_nil hdd] at he
    cases he
    exact ho
  · rw [heapExtract_cons hdd] at he
    cases he
    dsimp only
    split_ifs with hlen
    · exact heapifyDown_ordered hc (downOk_extract (hdd ▸ ho))
    · intro i a b hi hia hib
      have hil := (List.getElem?_eq_some_iff.1 hia).1
      omega

theorem heapUpdate_ordered [DecidableEq β] {h : Heap β γ}
    {rank : Option β → Int}
    (hc : RankConsistent h.cmpFn rank) (ho : HOrdR rank h.data)
    {d : Option β} {b : Bool} {h' : Heap β γ}
    (he : HeapUpdatePriority (some h) d = (b, some h')) :
    HOrdR rank h'.data := by
  cases d
  · rw [heapUpdate_null] at he
    cases he
    exact ho
  case some x =>
    rcases hf : h.data.findIdx? (· = some x) with _ | t
    · rw [heapUpdate_notfound hf] at he
      cases he
      exact ho
    · rw [heapUpdate_found hf] at he
      cases he
      dsimp only
      have hup : HeapifyUp h.cmpFn h.data t = h.data := by
        rcases Nat.eq_zero_or_pos t with rfl | ht
        · exact heapifyUp_noop_zero _ _
        · have htl : t < h.data.length := by
            rcases List.findIdx?_eq_some_iff_getElem.1 hf with ⟨hlt, _⟩
            exact hlt
          have hpl : GetParent t < h.data.length :=
            lt_trans (GetParent_lt ht) htl
          exact heapifyUp_noop (List.getElem?_eq_getElem htl)
            (List.getElem?_eq_getElem hpl)
            ((hc.nonpos _ _).2 (ho t _ _ ht (List.getElem?_eq_getElem htl)
              (List.getElem?_eq_getElem hpl)))
      rw [hup]
      rw [heapifyDown_of_ordered hc ho t]
      exact ho

/-! ## Outcome lemmas for extract, update and create -/

/-- Moving the last live element to the freed root slot is a permutation
of the removed-root remainder. -/
theorem extract_perm (x : α) (xs : List α) :
    ((xs.getLastD x :: xs).dropLast).Perm xs := by
  rcases xs with _ | ⟨y, ys⟩
  · simp
  · have hne : y :: ys ≠ [] := List.cons_ne_nil y ys
    rw [List.dropLast_cons_of_ne_nil hne]
    have h1 : (y :: ys).getLastD x = (y :: ys).getLast hne := by
      rw [List.getLast_eq_getLastD, List.getLastD_cons]
    rw [h1]
    have h2 := List.dropLast_concat_getLast hne
    exact (@List.perm_append_comm _ [(y :: ys).getLast hne]
      ((y :: ys).dropLast)).trans (by rw [h2])

theorem heapExtract_out {h : Heap β γ} {v : Option β} {h' : Heap β γ}
    (he : HeapExtract (some h) = (v, some h')) :
    h'.cmpFn = h.cmpFn ∧ h'.freeFn = h.freeFn ∧ h'.capacity = h.capacity ∧
    ((h.data = [] ∧ h' = h ∧ v = none) ∨
      (h.data[0]? = some v ∧ (v :: h'.data).Perm h.data)) := by
  rcases hdd : h.data with _ | ⟨x, xs⟩
  · rw [heapExtract_nil hdd] at he
    cases he
    exact ⟨rfl, rfl, rfl, Or.inl ⟨rfl, rfl, rfl⟩⟩
  · rw [heapExtract_cons hdd] at he
    cases he
    refine ⟨rfl, rfl, rfl, Or.inr ⟨List.getElem?_cons_zero, ?_⟩⟩
    dsimp only
    split_ifs with hlen
    · exact ((heapifyDown_perm _ _ 0).trans (extract_perm _ _)).cons _
    · exact (extract_perm _ _).cons _

theorem heapUpdate_out [DecidableEq β] {h : Heap β γ} {d : Option β}
    {b : Bool} {h' : Heap β γ}
    (he : HeapUpdatePriority (some h) d = (b, some h')) :
    h'.cmpFn = h.cmpFn ∧ h'.freeFn = h.freeFn ∧ h'.capacity = h.capacity ∧
    h'.data.Perm h.data := by
  cases d
  · rw [heapUpdate_null] at he
    cases he
    exact ⟨rfl, rfl, rfl, List.Perm.refl _⟩
  case some x =>
    rcases hf : h.data.findIdx? (· = some x) with _ | t
    · rw [heapUpdate_notfound hf] at he
      cases he
      exact ⟨rfl, rfl, rfl, List.Perm.refl _⟩
    · rw [heapUpdate_found hf] at he
      cases he
      exact ⟨rfl, rfl, rfl,
        (heapifyDown_perm _ _ t).trans (heapifyUp_perm _ t _)⟩

theorem heapCreate_some {capacity : Int}
    {f : Option β → Option β → Int} {g : γ} {h : Heap β γ}
    (he : HeapCreate capacity (some f) g = some h) :
    h.data = [] ∧
    h.capacity = (if 0 < capacity then capacity.toNat else 16) ∧
    h.cmpFn = f ∧ h.freeFn = g := by
  unfold HeapCreate at he
  cases he
  exact ⟨rfl, rfl, rfl, rfl⟩

/-! ## Reachable heap states -/

/-- The heaps the public API can produce: built by a successful
`HeapCreate` and mutated only through `HeapInsert`, `HeapExtract` and
`HeapUpdatePriority` (with any outcome of the fallible allocation). -/
inductive Reach {β : Type u} {γ : Type v} [DecidableEq β] :
    Heap β γ → Prop where
  | create (capacity : Int) (cmpFn : Option β → Option β → Int)
      (freeFn : γ) (h : Heap β γ) :
      HeapCreate capacity (some cmpFn) freeFn = some h → Reach h
  | insert (h : Heap β γ) (d : Option β) (ok b : Bool) (h' : Heap β γ) :
      Reach h → HeapInsert (some h) d ok = (b, some h') → Reach h'
  | extract (h : Heap β γ) (v : Option β) (h' : Heap β γ) :
      Reach h → HeapExtract (some h) = (v, some h') → Reach h'
  | update (h : Heap β γ) (d : Option β) (b : Bool) (h' : Heap β γ) :
      Reach h → HeapUpdatePriority (some h) d = (b, some h') → Reach h'

/-- The master invariant of reachable heaps: the live size never exceeds
the capacity, the capacity is at least one, and — whenever the stored
oracle is total-order-consistent — the heap order holds. -/
theorem reach_invariant [DecidableEq β] {h : Heap β γ} (hr : Reach h) :
    h.data.length ≤ h.capacity ∧ 1 ≤ h.capacity ∧
    (∀ rank, RankConsistent h.cmpFn rank → HOrdR rank h.data) := by
  induction hr with
  | create capacity cmpFn freeFn h0 he =>
    obtain ⟨hd, hcap, _, _⟩ := heapCreate_some he
    refine ⟨by rw [hd, hcap]; simp, by rw [hcap]; split_ifs <;> omega, ?_⟩
    intro rank _ i a b _ hia _
    rw [hd] at hia
    cases hia
  | insert h0 d ok b h' hr he ih =>
    obtain ⟨hsz, hcap1, hord⟩ := ih
    rcases heapInsert_out he with ⟨_, hcmp, _, hdata, hcaps⟩ | ⟨_, rfl⟩
    · have hlen : h'.data.length = h0.data.length + 1 := by
        rw [hdata, (heapifyUp_perm _ _ _).length_eq]
        simp
      refine ⟨?_, ?_, ?_⟩
      · rcases hcaps with ⟨hfull, hcap⟩ | ⟨hnf, hcap⟩ <;> omega
      · rcases hcaps with ⟨_, hcap⟩ | ⟨_, hcap⟩ <;> omega
      · intro rank hc
        rw [hcmp] at hc
        exact heapInsert_ordered hc (hord rank hc) he
    · exact ⟨hsz, hcap1, hord⟩
  | extract h0 v h' hr he ih =>
    obtain ⟨hsz, hcap1, hord⟩ := ih
    obtain ⟨hcmp, _, hcap, hout⟩ := heapExtract_out he
    refine ⟨?_, by omega, ?_⟩
    · rcases hout with ⟨_, rfl, _⟩ | ⟨_, hperm⟩
      · exact hsz
      · have := hperm.length_eq
        simp at this
        omega
    · intro rank hc
      rw [hcmp] at hc
      exact heapExtract_ordered hc (hord rank hc) he
  | update h0 d b h' hr he ih =>
    obtain ⟨hsz, hcap1, hord⟩ := ih
    obtain ⟨hcmp, _, hcap, hperm⟩ := heapUpdate_out he
    refine ⟨by rw [hperm.length_eq]; omega, by omega, ?_⟩
    intro rank hc
    rw [hcmp] at hc
    exact heapUpdate_ordered hc (hord rank hc) he

/-! ## Update-priority repair -/

/-- The repair performed by `HeapUpdatePriority`: if the heap was
rank-ordered before the element at `t` had its priority externally
changed (i.e. some value `v` at `t` would make the whole list ordered),
then sift-up followed by sift-down from `t` restores the heap order —
and whenever sift-up actually moved the element, the subsequent
sift-down is a no-op. -/
theorem update_repair {cmp : α → α → Int} {rank : α → Int}
    (hc : RankConsistent cmp rank) {l : List α} {t : Nat} {v : α}
    (hv : HOrdR rank (l.set t v)) (ht : t < l.length) :
    HOrdR rank (HeapifyDown cmp (HeapifyUp cmp l t) t) ∧
    (HeapifyUp cmp l t ≠ l →
      HeapifyDown cmp (HeapifyUp cmp l t) t = HeapifyUp cmp l t) := by
  have hw : l[t]? = some (l[t]) := List.getElem?_eq_getElem ht
  have hset : ∀ k, k ≠ t → (l.set t v)[k]? = l[k]? :=
    fun k hk => List.getElem?_set_ne (Ne.symm hk)
  have hsetT : (l.set t v)[t]? = some v :=
    List.getElem?_set_self (by simpa using ht)
  have hedge : ∀ i a b, 0 < i → i ≠ t → GetParent i ≠ t →
      l[i]? = some a → l[GetParent i]? = some b → rank a ≤ rank b :=
    fun i a b hi hit hpt hia hib =>
      hv i a b hi (by rw [hset i hit]; exact hia)
        (by rw [hset _ hpt]; exact hib)
  have hcv : ∀ c a, (c = GetLeftChild t ∨ c = GetRightChild t) →
      l[c]? = some a → rank a ≤ rank v := by
    intro c a hcor hca
    have hc0 : 0 < c := by
      rcases hcor with rfl | rfl
      · exact GetLeftChild_pos t
      · exact GetRightChild_pos t
    have hct : c ≠ t := by
      rcases hcor with rfl | rfl <;>
        simp only [GetLeftChild, GetRightChild] <;> omega
    have hgc : GetParent c = t := by
      rcases hcor with rfl | rfl
      · exact GetParent_left t
      · exact GetParent_right t
    exact hv c a v hc0 (by rw [hset c hct]; exact hca)
      (by rw [hgc]; exact hsetT)
  have hvp : 0 < t → ∀ b, l[GetParent t]? = some b → rank v ≤ rank b := by
    intro ht0 b hb
    exact hv t v b ht0 hsetT
      (by rw [hset _ (by have := GetParent_lt ht0; omega)]; exact hb)
  by_cases hB : ∃ c a, (c = GetLeftChild t ∨ c = GetRightChild t) ∧
      l[c]? = some a ∧ rank (l[t]) < rank a
  · -- some child outranks the updated element: sift-up is a no-op and
    -- sift-down alone restores the order
    obtain ⟨cs, as, hcor, hcas, hlts⟩ := hB
    have hple : 0 < t → ∀ b, l[GetParent t]? = some b →
        rank (l[t]) ≤ rank b := by
      intro ht0 b hb
      have h1 := hcv cs as hcor hcas
      have h2 := hvp ht0 b hb
      omega
    have hup : HeapifyUp cmp l t = l := by
      rcases Nat.eq_zero_or_pos t with rfl | ht0
      · exact heapifyUp_noop_zero cmp l
      · have hpl : GetParent t < l.length := lt_trans (GetParent_lt ht0) ht
        exact heapifyUp_noop hw (List.getElem?_eq_getElem hpl)
          ((hc.nonpos _ _).2 (hple ht0 _ (List.getElem?_eq_getElem hpl)))
    have hD : DownOkR rank l t := by
      constructor
      · intro i a b hi hpit hia hib
        rcases Decidable.em (i = t) with rfl | hit
        · rw [hw] at hia
          cases hia
          exact hple hi b hib
        · exact hedge i a b hi hit hpit hia hib
      · intro x a b ht0 hxor hxa hgb
        rcases hxor with rfl | hxor
        · rw [hw] at hxa
          cases hxa
          exact hple ht0 b hgb
        · have h1 := hcv x a hxor hxa
          have h2 := hvp ht0 b hgb
          omega
    rw [hup]
    exact ⟨heapifyDown_ordered hc hD, fun hne => absurd rfl hne⟩
  · -- no child outranks the updated element: sift-up restores the order
    -- by itself and the subsequent sift-down is a no-op
    push_neg at hB
    have hA : ∀ c a, (c = GetLeftChild t ∨ c = GetRightChild t) →
        l[c]? = some a → rank a ≤ rank (l[t]) := by
      intro c a hcor hca
      have := hB c a hcor hca
      omega
    have hU : UpOkR rank l t := by
      constructor
      · intro i a b hi hit hia hib
        rcases Decidable.em (GetParent i = t) with hpt | hpt
        · have hch := child_of_parent hi
          rw [hpt] at hch hib
          rw [hw] at hib
          cases hib
          exact hA i a hch hia
        · exact hedge i a b hi hit hpt hia hib
      · intro c a b ht0 hcor hca hpb
        have h1 := hcv c a hcor hca
        have h2 := hvp ht0 b hpb
        omega
    have hord : HOrdR rank (HeapifyUp cmp l t) :=
      heapifyUp_ordered hc t l hU
    have hdn := heapifyDown_of_ordered hc hord t
    rw [hdn]
    exact ⟨hord, fun _ => rfl⟩

/-! ## Operation sequences: N inserts followed by N extractions -/

/-- `HeapInsert` with a live handle and a succeeding allocation always
succeeds, appending and sifting up the new payload. -/
theorem heapInsert_true (h : Heap β γ) (d : Option β) :
    ∃ h', HeapInsert (some h) d true = (true, some h') ∧
      h'.cmpFn = h.cmpFn ∧ h'.freeFn = h.freeFn ∧
      h'.data = HeapifyUp h.cmpFn (h.data ++ [d]) h.data.length ∧
      h.capacity ≤ h'.capacity := by
  by_cases hfull : h.data.length = h.capacity
  · exact ⟨_, heapInsert_full_ok hfull d, rfl, rfl, rfl,
      by show h.capacity ≤ 2 * h.capacity; omega⟩
  · exact ⟨_, heapInsert_notfull hfull d true, rfl, rfl, rfl, le_refl _⟩

theorem length_heapifyUp (cmp : α → α → Int) (l : List α) (j : Nat) :
    (HeapifyUp cmp l j).length = l.length :=
  (heapifyUp_perm cmp j l).length_eq

/-- A sequence of `HeapInsert` calls with succeeding allocations. -/
def insertAll (mh : Option (Heap β γ)) (xs : List (Option β)) :
    Option (Heap β γ) :=
  xs.foldl (fun m d => (HeapInsert m d true).2) mh

/-- A sequence of `n` `HeapExtract` calls, collecting the returned
payloads in call order. -/
def extractN (mh : Option (Heap β γ)) : Nat → List (Option β) × Option (Heap β γ)
  | 0 => ([], mh)
  | n + 1 =>
    let r := HeapExtract mh
    let rest := extractN r.2 n
    (r.1 :: rest.1, rest.2)

theorem insertAll_spec :
    ∀ (xs : List (Option β)) (h : Heap β γ),
      ∃ h', insertAll (some h) xs = some h' ∧ h'.cmpFn = h.cmpFn ∧
        h'.freeFn = h.freeFn ∧ h'.data.Perm (xs ++ h.data) ∧
        h.capacity ≤ h'.capacity ∧
        (∀ rank, RankConsistent h.cmpFn rank → HOrdR rank h.data →
          HOrdR rank h'.data) := by
  intro xs
  induction xs with
  | nil =>
    intro h
    exact ⟨h, rfl, rfl, rfl, List.Perm.refl _, le_refl _, fun _ _ ho => ho⟩
  | cons d ds ih =>
    intro h
    obtain ⟨h1, he1, hcmp1, hfree1, hdata1, hcap1⟩ := heapInsert_true h d
    obtain ⟨h', he', hcmp', hfree', hperm', hcap', hord'⟩ := ih h1
    refine ⟨h', ?_, by rw [hcmp', hcmp1], by rw [hfree', hfree1], ?_, ?_, ?_⟩
    · show ((d :: ds).foldl (fun m d => (HeapInsert m d true).2) (some h)) = some h'
      rw [List.foldl_cons, he1]
      exact he'
    · have hp1 : h1.data.Perm (d :: h.data) := by
        rw [hdata1]
        exact (heapifyUp_perm _ _ _).trans
          (@List.perm_append_comm _ h.data [d])
      refine hperm'.trans ?_
      refine (hp1.append_left ds).trans ?_
      exact List.perm_middle
    · omega
    · intro rank hc ho
      have hc1 : RankConsistent h1.cmpFn rank := by rw [hcmp1]; exact hc
      have ho1 : HOrdR rank h1.data := heapInsert_ordered hc ho he1
      exact hord' rank hc1 ho1

theorem extractN_spec {rank : Option β → Int} :
    ∀ (n : Nat) (h : Heap β γ), RankConsistent h.cmpFn rank →
      HOrdR rank h.data → h.data.length = n →
      ∃ (out : List (Option β)) (h' : Heap β γ),
        extractN (some h) n = (out, some h') ∧ out.Perm h.data ∧
        h'.data = [] ∧ h'.cmpFn = h.cmpFn ∧ h'.capacity = h.capacity ∧
        List.Chain' (fun a b => rank b ≤ rank a) out := by
  intro n
  induction n with
  | zero =>
    intro h _ _ hlen
    rw [List.length_eq_zero] at hlen
    exact ⟨[], h, rfl, by rw [hlen], hlen, rfl, rfl, List.chain'_nil⟩
  | succ n ih =>
    intro h hc ho hlen
    rcases hdd : h.data with _ | ⟨x, xs⟩
    · rw [hdd] at hlen
      cases hlen
    · have hx := heapExtract_cons hdd
      obtain ⟨hcmp1, _, hcap1, hout⟩ := heapExtract_out hx
      rcases hout with ⟨hnil, _, _⟩ | ⟨hroot, hperm⟩
      · rw [hdd] at hnil
        cases hnil
      rw [hdd] at hperm
      have hperm2 := hperm.cons_inv
      have hc1 : RankConsistent ({ h with
        data := if 0 < ((xs.getLastD x :: xs).dropLast).length
          then HeapifyDown h.cmpFn ((xs.getLastD x :: xs).dropLast) 0
          else (xs.getLastD x :: xs).dropLast } : Heap β γ).cmpFn rank := hc
      have ho1 := heapExtract_ordered hc ho hx
      have hlen1 : ({ h with
        data := if 0 < ((xs.getLastD x :: xs).dropLast).length
          then HeapifyDown h.cmpFn ((xs.getLastD x :: xs).dropLast) 0
          else (xs.getLastD x :: xs).dropLast } : Heap β γ).data.length = n := by
        have hpl := hperm2.length_eq
        rw [hdd] at hlen
        simp only [List.length_cons] at hlen
        rw [hpl]
        omega
      obtain ⟨out, h', he', hperm', hnil', hcmp', hcap', hchain'⟩ :=
        ih _ hc1 ho1 hlen1
      refine ⟨x :: out, h', ?_, ?_, hnil', by rw [hcmp'], by rw [hcap'], ?_⟩
      · show (let r := HeapExtract (some h)
          let rest := extractN r.2 n
          (r.1 :: rest.1, rest.2)) = (x :: out, some h')
        rw [hx]
        dsimp only
        rw [he']
      · exact (hperm'.trans hperm2).cons x
      · rw [List.chain'_cons']
        refine ⟨?_, hchain'⟩
        intro y hy
        have hy1 := hperm'.mem_iff.1 (List.mem_of_mem_head? hy)
        have hy2 : y ∈ x :: xs := hperm.mem_iff.1 (List.mem_cons_of_mem x hy1)
        obtain ⟨i, hi⟩ := List.getElem?_of_mem hy2
        refine root_le (l := x :: xs) ?_ i y x hi List.getElem?_cons_zero
        rw [hdd] at ho
        exact ho

/-- Size bookkeeping for insert sequences, independent of any order
hypothesis. -/
theorem insertAll_length :
    ∀ (xs : List (Option β)) (h : Heap β γ),
      ∃ h', insertAll (some h) xs = some h' ∧
        h'.data.length = h.data.length + xs.length ∧
        h.capacity ≤ h'.capacity ∧ h'.cmpFn = h.cmpFn := by
  intro xs
  induction xs with
  | nil => exact fun h => ⟨h, rfl, by simp, le_refl _, rfl⟩
  | cons d ds ih =>
    intro h
    obtain ⟨h1, he1, hcmp1, _, hdata1, hcap1⟩ := heapInsert_true h d
    obtain ⟨h', he', hlen', hcap', hcmp'⟩ := ih h1
    refine ⟨h', ?_, ?_, by omega, by rw [hcmp', hcmp1]⟩
    · show ((d :: ds).foldl (fun m d => (HeapInsert m d true).2) (some h)) = some h'
      rw [List.foldl_cons, he1]
      exact he'
    · rw [hlen', hdata1, length_heapifyUp]
      simp
      omega

/-- Size bookkeeping for extraction sequences, independent of any order
hypothesis. -/
theorem extractN_length :
    ∀ (n : Nat) (h : Heap β γ), n ≤ h.data.length →
      ∃ out h', extractN (some h) n = (out, some h') ∧
        out.length = n ∧ h'.data.length = h.data.length - n ∧
        h'.capacity = h.capacity := by
  intro n
  induction n with
  | zero => exact fun h _ => ⟨[], h, rfl, rfl, by omega, rfl⟩
  | succ n ih =>
    intro h hlen
    rcases hdd : h.data with _ | ⟨x, xs⟩
    · rw [hdd] at hlen
      simp at hlen
    · have hx := heapExtract_cons hdd
      obtain ⟨_, _, hcap1, hout⟩ := heapExtract_out hx
      rcases hout with ⟨hnil, _, _⟩ | ⟨_, hperm⟩
      · rw [hdd] at hnil
        cases hnil
      rw [hdd] at hperm hlen
      have hperm2 := hperm.cons_inv
      have hpl := hperm2.length_eq
      simp only [List.length_cons] at hlen
      obtain ⟨out, h', he', hlen', hdlen', hcap'⟩ := ih _ (by rw [hpl]; omega)
      refine ⟨x :: out, h', ?_, by simp [hlen'], ?_, by rw [hcap']⟩
      · show (let r := HeapExtract (some h)
          let rest := extractN r.2 n
          (r.1 :: rest.1, rest.2)) = (x :: out, some h')
        rw [hx]
        dsimp only
        rw [he']
      · rw [hdlen', hpl]
        simp only [List.length_cons]
        omega

/-! ## Concrete comparison oracles used in witnesses and counterexamples -/

/-- The spec's "max by integer key" oracle on (possibly-null) integer
payloads: a `NULL` payload is read as key 0. -/
def natCmp : Option Int → Option Int → Int := fun a b => a.getD 0 - b.getD 0

theorem natCmp_rank :
    RankConsistent natCmp (fun a : Option Int => a.getD 0) := by
  intro a b
  unfold natCmp
  dsimp only
  omega

/-- A pathological pure oracle that always reports the first argument
as strictly higher priority.  It is a legitimate pure function but not
consistent with any ordering. -/
def oneCmp : Option Int → Option Int → Int := fun _ _ => 1

/-- A rock-paper-scissors oracle on integer keys 0, 1, 2: key 1 beats
key 0, key 2 beats key 1, and key 0 beats key 2.  Pure and asymmetric,
but cyclic, hence not consistent with any ordering. -/
def rpsCmp : Option Int → Option Int → Int := fun a b =>
  let x := a.getD 0
  let y := b.getD 0
  if (x = 1 ∧ y = 0) ∨ (x = 2 ∧ y = 1) ∨ (x = 0 ∧ y = 2) then 1
  else if x = y then 0 else -1

/-- Concrete heap states over integer payloads, used in witnesses and
counterexamples. -/
def mkHeap (cmp : Option Int → Option Int → Int) (l : List (Option Int))
    (c : Nat) : Heap Int Unit :=
  { data := l, capacity := c, cmpFn := cmp, freeFn := () }

/-- A sanity computation: scenario A of the spec, first extraction. -/
example :
    (HeapExtract (HeapInsert (HeapInsert (HeapInsert (HeapInsert
      (HeapCreate 16 (some natCmp) ())
      (some 5) true).2 (some 2) true).2 (some 9) true).2 (some 1) true).2).1
      = some 9 := by
  simp [HeapCreate, HeapInsert, HeapExtract, HeapifyUp, HeapifyDown,
    hdStep, hdCand, swapL, GetParent, GetLeftChild, GetRightChild, natCmp]

/-! ## Claim theorems -/

/-- C1 (amended): for every heap built by `HeapCreate` with a fixed,
pure, total-order-consistent comparison oracle and mutated only through
`HeapInsert`, `HeapExtract` and `HeapUpdatePriority`, after every public
operation the heap-order invariant holds: for every index `i` with
`0 < i < size`, `cmpFn` applied to (element at `i`, element at
`parent(i) = (i-1)/2`) does not return a positive value. -/
theorem claim1_heap_order_reachable {β γ : Type} [DecidableEq β]
    {h : Heap β γ} (rank : Option β → Int) (hr : Reach h)
    (hc : RankConsistent h.cmpFn rank) :
    HeapOrderedCmp h.cmpFn h.data :=
  (hOrdR_iff hc).2 ((reach_invariant hr).2.2 rank hc)

/-- C1 (counterexample): with the pure but inconsistent oracle that
always answers "first argument ranks higher", two `HeapInsert` calls on
a freshly created heap leave the heap-order invariant violated, so the
claim is false for an arbitrary pure oracle. -/
theorem claim1_counterexample :
    (HeapInsert (HeapInsert (HeapCreate 16 (some oneCmp) ())
        (some 0) true).2 (some 1) true).2
      = some (mkHeap oneCmp [some 1, some 0] 16) ∧
    ¬ HeapOrderedCmp oneCmp [some (1 : Int), some 0] := by
  constructor
  · simp [HeapCreate, HeapInsert, HeapifyUp, swapL, GetParent, oneCmp, mkHeap]
  · intro hord
    have := hord 1 (some 0) (some 1) one_pos rfl rfl
    rw [oneCmp] at this
    omega

/-- C1 (witness): the amended theorem applied to the concrete reachable
heap obtained by creating with the max-by-key oracle and inserting keys
1 then 3. -/
theorem claim1_witness :
    HeapOrderedCmp natCmp [some (3 : Int), some (1 : Int)] := by
  have h0 : HeapCreate 16 (some natCmp) () = some (mkHeap natCmp [] 16) := rfl
  have r0 := Reach.create _ _ _ _ h0
  have h1 : HeapInsert (some (mkHeap natCmp [] 16)) (some 1) true =
      (true, some (mkHeap natCmp [some 1] 16)) := by
    simp [HeapInsert, HeapifyUp, natCmp, mkHeap]
  have r1 := Reach.insert _ _ _ _ _ r0 h1
  have h2 : HeapInsert (some (mkHeap natCmp [some 1] 16)) (some 3) true =
      (true, some (mkHeap natCmp [some 3, some 1] 16)) := by
    simp [HeapInsert, HeapifyUp, swapL, GetParent, natCmp, mkHeap]
  have r2 := Reach.insert _ _ _ _ _ r1 h2
  exact claim1_heap_order_reachable (fun a => a.getD 0) r2 natCmp_rank

/-- C4: on a full heap (`size == capacity`), `HeapInsert` with a failing
growth allocation returns `false` and leaves the heap exactly as it was;
with a succeeding growth allocation it doubles the capacity, places the
payload, and reports success. -/
theorem claim4_growth {β γ : Type} (h : Heap β γ) (d : Option β)
    (hfull : h.data.length = h.capacity) :
    HeapInsert (some h) d false = (false, some h) ∧
    ∃ h', HeapInsert (some h) d true = (true, some h') ∧
      h'.capacity = 2 * h.capacity ∧
      h'.data.length = h.data.length + 1 ∧
      h'.cmpFn = h.cmpFn ∧ h'.freeFn = h.freeFn ∧
      h'.data.Perm (d :: h.data) := by
  refine ⟨heapInsert_full_fail hfull d, ?_⟩
  refine ⟨_, heapInsert_full_ok hfull d, rfl, ?_, rfl, rfl, ?_⟩
  · show (HeapifyUp h.cmpFn (h.data ++ [d]) h.data.length).length
      = h.data.length + 1
    rw [length_heapifyUp]
    simp
  · show (HeapifyUp h.cmpFn (h.data ++ [d]) h.data.length).Perm (d :: h.data)
    exact (heapifyUp_perm _ _ _).trans
      (@List.perm_append_comm _ h.data [d])

/-- C4 (witness): the theorem applied to a concrete full heap of
capacity 1. -/
theorem claim4_witness :
    HeapInsert (some (mkHeap natCmp [some 7] 1)) (some 2) false =
      (false, some (mkHeap natCmp [some 7] 1)) ∧
    ∃ h', HeapInsert (some (mkHeap natCmp [some 7] 1)) (some 2) true
        = (true, some h') ∧
      h'.capacity = 2 * 1 ∧ h'.data.length = 1 + 1 ∧
      h'.cmpFn = natCmp ∧ h'.freeFn = () ∧
      h'.data.Perm (some 2 :: [some 7]) :=
  claim4_growth (mkHeap natCmp [some 7] 1) (some 2) rfl

/-- C7: `HeapExtract` and `HeapPeek` on an absent or empty heap return
the empty-signal `NULL`; extracting twice from an empty heap returns the
empty-signal both times and leaves the state unchanged.  (`HeapPeek` is
modelled as a pure read with no state output because the C function only
reads `data[0]` and never writes.) -/
theorem claim7_empty {β γ : Type} (h : Heap β γ) (hd : h.data = []) :
    HeapExtract (none : Option (Heap β γ)) = (none, none) ∧
    HeapPeek (none : Option (Heap β γ)) = none ∧
    HeapExtract (some h) = (none, some h) ∧
    HeapPeek (some h) = none ∧
    HeapExtract ((HeapExtract (some h)).2) = (none, some h) := by
  refine ⟨rfl, rfl, heapExtract_nil hd, ?_, ?_⟩
  · unfold HeapPeek
    dsimp only
    rw [hd]
  · rw [heapExtract_nil hd]
    exact heapExtract_nil hd

/-- C7 (witness): the theorem applied to a freshly created empty heap. -/
theorem claim7_witness :
    HeapExtract (none : Option (Heap Int Unit)) = (none, none) ∧
    HeapPeek (none : Option (Heap Int Unit)) = none ∧
    HeapExtract (some (mkHeap natCmp [] 16)) =
      (none, some (mkHeap natCmp [] 16)) ∧
    HeapPeek (some (mkHeap natCmp [] 16)) = none ∧
    HeapExtract ((HeapExtract (some (mkHeap natCmp [] 16))).2) =
      (none, some (mkHeap natCmp [] 16)) :=
  claim7_empty _ rfl

/-- C9: `HeapCreate` returns no instance when the oracle is absent (for
any capacity hint); a non-positive capacity hint is normalized to 16; on
success the heap is empty with the normalized capacity and stores the
oracle and destructor unmodified. -/
theorem claim9_create {β γ : Type} (capacity : Int)
    (f : Option β → Option β → Int) (g : γ) :
    HeapCreate capacity (none : Option (Option β → Option β → Int)) g
      = none ∧
    (capacity ≤ 0 → HeapCreate capacity (some f) g =
      some { data := [], capacity := 16, cmpFn := f, freeFn := g }) ∧
    (0 < capacity → HeapCreate capacity (some f) g =
      some { data := [], capacity := capacity.toNat, cmpFn := f, freeFn := g }) ∧
    ∃ h, HeapCreate capacity (some f) g = some h ∧ h.data = [] ∧
      h.cmpFn = f ∧ h.freeFn = g := by
  refine ⟨rfl, ?_, ?_, ?_⟩
  · intro hle
    unfold HeapCreate
    rw [if_neg (by omega)]
  · intro hpos
    unfold HeapCreate
    rw [if_pos hpos]
  · exact ⟨_, rfl, rfl, rfl, rfl⟩

/-- C9 (witness): the theorem applied at a negative capacity hint. -/
theorem claim9_witness :
    HeapCreate (-3) (none : Option (Option Int → Option Int → Int)) ()
      = none ∧
    ((-3 : Int) ≤ 0 → HeapCreate (-3) (some natCmp) () =
      some { data := [], capacity := 16, cmpFn := natCmp, freeFn := () }) ∧
    ((0 : Int) < -3 → HeapCreate (-3) (some natCmp) () =
      some { data := [], capacity := (-3 : Int).toNat, cmpFn := natCmp, freeFn := () }) ∧
    ∃ h : Heap Int Unit, HeapCreate (-3) (some natCmp) () = some h ∧
      h.data = [] ∧ h.cmpFn = natCmp ∧ h.freeFn = () :=
  claim9_create (-3) natCmp ()

/-- C10: `HeapInsert` performs no null check on the payload — inserting
the `NULL` payload succeeds and makes it a live element — while
`HeapUpdatePriority` invoked with the `NULL` payload reference always
returns `false` with the heap unchanged, so an inserted `NULL` payload
can never be repositioned through `HeapUpdatePriority`. -/
theorem claim10_null_payload {β γ : Type} [DecidableEq β] (h : Heap β γ) :
    (∃ h', HeapInsert (some h) none true = (true, some h') ∧
      none ∈ h'.data ∧ h'.data.length = h.data.length + 1) ∧
    (∀ h0 : Heap β γ, HeapUpdatePriority (some h0) none
      = (false, some h0)) := by
  constructor
  · obtain ⟨h', he, _, _, hdata, _⟩ := heapInsert_true h none
    refine ⟨h', he, ?_, ?_⟩
    · rw [hdata]
      have hm : (none : Option β) ∈ h.data ++ [none] := by simp
      exact (heapifyUp_perm h.cmpFn _ _).mem_iff.2 hm
    · rw [hdata, length_heapifyUp]
      simp
  · exact fun h0 => heapUpdate_null h0

/-- C10 (witness): the theorem applied to a concrete one-element heap;
the inserted `NULL` payload is live while `HeapUpdatePriority` on `NULL`
fails without touching the state. -/
theorem claim10_witness :
    (∃ h', HeapInsert (some (mkHeap natCmp [some 5] 4)) none true =
      (true, some h') ∧ none ∈ h'.data ∧ h'.data.length = 1 + 1) ∧
    (∀ h0 : Heap Int Unit, HeapUpdatePriority (some h0) none
      = (false, some h0)) :=
  claim10_null_payload (mkHeap natCmp [some 5] 4)

/-- C2: on a freshly created heap with a total-order-consistent oracle,
N `HeapInsert` calls followed by N `HeapExtract` calls return all the
payloads in non-increasing oracle-rank order (no later payload outranks
an earlier one); in particular, with the max-by-integer-key oracle,
inserting keys [5,2,9,1] and extracting four times yields 9,5,2,1. -/
theorem claim2_extraction_order {β γ : Type} (cmp : Option β → Option β → Int)
    (rank : Option β → Int) (hc : RankConsistent cmp rank)
    (freeFn : γ) (capacity : Int) (xs : List (Option β)) :
    (∃ out h', extractN (insertAll (HeapCreate capacity (some cmp) freeFn) xs)
        xs.length = (out, some h') ∧ out.Perm xs ∧
      List.Chain' (fun a b => cmp b a ≤ 0) out) ∧
    (extractN (insertAll (HeapCreate 16 (some natCmp) ())
        [some 5, some 2, some 9, some 1]) 4).1
      = [some 9, some 5, some 2, some 1] := by
  constructor
  · have hcr : HeapCreate capacity (some cmp) freeFn =
        some ({ data := [],
                capacity := if 0 < capacity then capacity.toNat else 16,
                cmpFn := cmp, freeFn := freeFn } : Heap β γ) := rfl
    obtain ⟨h1, hins, hcmp1, _, hperm1, _, hord1⟩ := insertAll_spec xs
      ({ data := [],
         capacity := if 0 < capacity then capacity.toNat else 16,
         cmpFn := cmp, freeFn := freeFn } : Heap β γ)
    have ho0 : HOrdR rank
        ({ data := [],
           capacity := if 0 < capacity then capacity.toNat else 16,
           cmpFn := cmp, freeFn := freeFn } : Heap β γ).data := by
      intro i a b _ hia _
      exact absurd hia (by simp)
    have hord1' := hord1 rank hc ho0
    have hp1 : h1.data.Perm xs := by simpa using hperm1
    have hc1 : RankConsistent h1.cmpFn rank := by rw [hcmp1]; exact hc
    have hlen1 : h1.data.length = xs.length := hp1.length_eq
    obtain ⟨out, h', he', hperm', _, _, _, hchain⟩ :=
      extractN_spec xs.length h1 hc1 hord1' hlen1
    refine ⟨out, h', by rw [hcr, hins]; exact he', hperm'.trans hp1, ?_⟩
    exact hchain.imp (fun a b hr => (hc.nonpos b a).2 hr)
  · have s1 : HeapInsert (some (mkHeap natCmp [] 16)) (some 5) true
        = (true, some (mkHeap natCmp [some 5] 16)) := by
      simp [HeapInsert, HeapifyUp, swapL, GetParent, natCmp, mkHeap]
    have s2 : HeapInsert (some (mkHeap natCmp [some 5] 16)) (some 2) true
        = (true, some (mkHeap natCmp [some 5, some 2] 16)) := by
      simp [HeapInsert, HeapifyUp, swapL, GetParent, natCmp, mkHeap]
    have s3 : HeapInsert (some (mkHeap natCmp [some 5, some 2] 16))
        (some 9) true
        = (true, some (mkHeap natCmp [some 9, some 2, some 5] 16)) := by
      simp [HeapInsert, HeapifyUp, swapL, GetParent, natCmp, mkHeap]
    have s4 : HeapInsert (some (mkHeap natCmp [some 9, some 2, some 5] 16))
        (some 1) true
        = (true, some (mkHeap natCmp [some 9, some 2, some 5, some 1] 16)) := by
      simp [HeapInsert, HeapifyUp, swapL, GetParent, natCmp, mkHeap]
    have e1 : HeapExtract
        (some (mkHeap natCmp [some 9, some 2, some 5, some 1] 16))
        = (some 9, some (mkHeap natCmp [some 5, some 2, some 1] 16)) := by
      simp [HeapExtract, HeapifyDown, hdStep, hdCand, swapL,
        GetLeftChild, GetRightChild, natCmp, mkHeap]
    have e2 : HeapExtract (some (mkHeap natCmp [some 5, some 2, some 1] 16))
        = (some 5, some (mkHeap natCmp [some 2, some 1] 16)) := by
      simp [HeapExtract, HeapifyDown, hdStep, hdCand, swapL,
        GetLeftChild, GetRightChild, natCmp, mkHeap]
    have e3 : HeapExtract (some (mkHeap natCmp [some 2, some 1] 16))
        = (some 2, some (mkHeap natCmp [some 1] 16)) := by
      simp [HeapExtract, HeapifyDown, hdStep, hdCand, swapL,
        GetLeftChild, GetRightChild, natCmp, mkHeap]
    have e4 : HeapExtract (some (mkHeap natCmp [some 1] 16))
        = (some 1, some (mkHeap natCmp [] 16)) := by
      simp [HeapExtract, HeapifyDown, hdStep, hdCand, swapL,
        GetLeftChild, GetRightChild, natCmp, mkHeap]
    have hins : insertAll (some (mkHeap natCmp [] 16))
        [some 5, some 2, some 9, some 1]
        = some (mkHeap natCmp [some 9, some 2, some 5, some 1] 16) := by
      simp only [insertAll, List.foldl_cons, List.foldl_nil, s1, s2, s3, s4]
    have hcr : HeapCreate 16 (some natCmp) () = some (mkHeap natCmp [] 16) :=
      rfl
    rw [hcr, hins]
    simp only [extractN, e1, e2, e3, e4]

/-- C2 (witness): the general part applied to the max-by-key oracle and
the two-payload list [4, 6]. -/
theorem claim2_witness :
    (∃ out h', extractN (insertAll (HeapCreate 16 (some natCmp) ())
        [some (4 : Int), some 6]) 2 = (out, some h') ∧
      out.Perm [some (4 : Int), some 6] ∧
      List.Chain' (fun a b => natCmp b a ≤ 0) out) ∧
    (extractN (insertAll (HeapCreate 16 (some natCmp) ())
        [some 5, some 2, some 9, some 1]) 4).1
      = [some 9, some 5, some 2, some 1] :=
  claim2_extraction_order natCmp (fun a => a.getD 0) natCmp_rank () 16
    [some 4, some 6]

/-- C3 (amended): for every heap whose heap order can be restored at one
index `t` (some payload value at `t` would make the current list fully
ordered — i.e. only `t`'s externally mutated priority is out of place),
with a total-order-consistent oracle, a single `HeapUpdatePriority` call
on a reference located at `t` succeeds and restores the heap-order
invariant across the whole structure; moreover if the sift-up pass moved
anything, the sift-down pass is a no-op (at most one repair direction
acts). -/
theorem claim3_update_restores {β γ : Type} [DecidableEq β] (h : Heap β γ)
    (rank : Option β → Int) (d v : Option β) (t : Nat)
    (hc : RankConsistent h.cmpFn rank)
    (hfind : h.data.findIdx? (· = d) = some t)
    (hd : d ≠ none)
    (hv : HeapOrderedCmp h.cmpFn (h.data.set t v)) :
    ∃ h', HeapUpdatePriority (some h) d = (true, some h') ∧
      HeapOrderedCmp h.cmpFn h'.data ∧ h'.data.Perm h.data ∧
      h'.capacity = h.capacity ∧ h'.cmpFn = h.cmpFn ∧
      (HeapifyUp h.cmpFn h.data t ≠ h.data →
        HeapifyDown h.cmpFn (HeapifyUp h.cmpFn h.data t) t
          = HeapifyUp h.cmpFn h.data t) := by
  rcases d with _ | x
  · exact absurd rfl hd
  obtain ⟨ht, -⟩ := List.findIdx?_eq_some_iff_getElem.1 hfind
  obtain ⟨hord, hnoop⟩ := update_repair hc ((hOrdR_iff hc).1 hv) ht
  refine ⟨_, heapUpdate_found hfind, ?_, ?_, rfl, rfl, hnoop⟩
  · exact (hOrdR_iff hc).2 hord
  · exact (heapifyDown_perm _ _ t).trans (heapifyUp_perm _ t _)

/-- C3 (counterexample): with a pure, asymmetric but cyclic
(rock-paper-scissors) oracle the hypothesis of the claim can hold — the
heap is ordered everywhere except at index 1 — yet `HeapUpdatePriority`
on that element returns success with the heap-order invariant still
violated, so the claim is false without oracle consistency. -/
theorem claim3_counterexample :
    HeapOrderedCmp rpsCmp ([some (0 : Int), some 1, some 2].set 1 (some 2)) ∧
    HeapUpdatePriority (some (mkHeap rpsCmp [some 0, some 1, some 2] 16))
        (some 1)
      = (true, some (mkHeap rpsCmp [some 1, some 0, some 2] 16)) ∧
    ¬ HeapOrderedCmp rpsCmp [some (1 : Int), some 0, some 2] := by
  refine ⟨heapOrdB_iff.1 (by decide), ?_, ?_⟩
  · have hf : (mkHeap rpsCmp [some 0, some 1, some 2] 16).data.findIdx?
        (· = some 1) = some 1 := by decide
    rw [heapUpdate_found hf]
    simp [HeapifyUp, HeapifyDown, hdStep, hdCand, swapL, GetParent,
      GetLeftChild, GetRightChild, rpsCmp, mkHeap]
  · intro hord
    have := hord 2 (some 2) (some 1) (by omega) rfl rfl
    exact absurd this (by decide)

/-- C3 (witness): the amended theorem applied to the concrete heap
[3, 1] whose element at index 1 was externally changed (value 0 at index
1 would make it ordered). -/
theorem claim3_witness :
    ∃ h', HeapUpdatePriority (some (mkHeap natCmp [some 3, some 1] 4))
        (some 1) = (true, some h') ∧
      HeapOrderedCmp natCmp h'.data ∧
      h'.data.Perm [some 3, some 1] ∧ h'.capacity = 4 ∧
      h'.cmpFn = natCmp ∧
      (HeapifyUp natCmp [some 3, some 1] 1 ≠ [some 3, some 1] →
        HeapifyDown natCmp (HeapifyUp natCmp [some 3, some 1] 1) 1
          = HeapifyUp natCmp [some 3, some 1] 1) :=
  claim3_update_restores (mkHeap natCmp [some 3, some 1] 4)
    (fun a => a.getD 0) (some 1) (some 0) 1 natCmp_rank (by decide)
    (by decide) (heapOrdB_iff.1 (by decide))

/-- C5 (amended): in every sift-down step (the `extremeIndex` selection
of `HeapifyDown`, used by `HeapExtract`), with a total-order-consistent
oracle, when the current element is exchanged with a child that child
strictly outranks the current element and is not strictly outranked by
the other existing child (the left child wins exact ties); the loop
terminates exactly when no existing child outranks the current
element. -/
theorem claim5_sift_down_choice {α : Type} (cmp : α → α → Int)
    (rank : α → Int) (hc : RankConsistent cmp rank) (l : List α)
    (i : Nat) :
    (∀ a b, hdStep cmp l i ≠ i → l[hdStep cmp l i]? = some a →
      l[i]? = some b → 0 < cmp a b) ∧
    (∀ o a v, hdStep cmp l i ≠ i →
      (o = GetLeftChild i ∨ o = GetRightChild i) → o ≠ hdStep cmp l i →
      l[hdStep cmp l i]? = some a → l[o]? = some v → cmp v a ≤ 0) ∧
    (hdStep cmp l i = i ↔
      ∀ c a b, (c = GetLeftChild i ∨ c = GetRightChild i) →
        l[c]? = some a → l[i]? = some b → cmp a b ≤ 0) := by
  refine ⟨?_, ?_, ?_, ?_⟩
  · intro a b hne ha hb
    rcases hdStep_specR hc l i with ⟨he, _⟩ | ⟨ev, jv, _, hev, hjv, hlt, _⟩
    · exact absurd he hne
    · rw [hev] at ha
      rw [hjv] at hb
      cases ha
      cases hb
      exact (hc _ _).2 hlt
  · intro o a v hne hoor hone ha hv
    rcases hdStep_specR hc l i with ⟨he, _⟩ | ⟨ev, jv, _, hev, _, _, hoth⟩
    · exact absurd he hne
    · rw [hev] at ha
      cases ha
      exact (hc.nonpos _ _).2 (hoth o v hoor hone hv)
  · intro he c a b hcor ha hb
    rcases hdStep_specR hc l i with ⟨_, hfact⟩ | ⟨ev, jv, hech, _, _, _, _⟩
    · exact (hc.nonpos _ _).2 (hfact c a b hcor ha hb)
    · exfalso
      rcases hech with hh | hh <;> rw [he] at hh <;>
        simp only [GetLeftChild, GetRightChild] at hh <;> omega
  · intro hall
    rcases hdStep_specR hc l i with ⟨he, _⟩ | ⟨ev, jv, hech, hev, hjv, hlt, _⟩
    · exact he
    · exfalso
      have h1 := hall (hdStep cmp l i) ev jv hech hev hjv
      have h2 := (hc.nonpos ev jv).1 h1
      omega

/-- C5 (counterexample): under the max-by-key oracle, sifting down
`[1, 5, 5]` from the root exchanges the root with the left child, which
ties with — and hence does not strictly outrank — the right child, so
the claim's "strictly outranks the other existing child" is false. -/
theorem claim5_counterexample :
    ¬ (∀ (l : List (Option Int)) (i o : Nat) (a b : Option Int),
        hdStep natCmp l i ≠ i → l[hdStep natCmp l i]? = some a →
        (o = GetLeftChild i ∨ o = GetRightChild i) →
        o ≠ hdStep natCmp l i → l[o]? = some b →
        0 < natCmp a b) := by
  intro hcl
  have h1 : hdStep natCmp [some (1 : Int), some 5, some 5] 0 = 1 := by decide
  have h2 := hcl [some 1, some 5, some 5] 0 2 (some 5) (some 5)
    (by rw [h1]; omega) (by rw [h1]; rfl) (Or.inr rfl)
    (by rw [h1]; omega) rfl
  exact absurd h2 (by decide)

/-- C5 (witness): the amended theorem applied to the max-by-key oracle
on the list [1, 5] at the root. -/
theorem claim5_witness :
    (∀ a b, hdStep natCmp [some (1 : Int), some 5] 0 ≠ 0 →
      ([some (1 : Int), some 5])[hdStep natCmp [some (1 : Int), some 5] 0]?
        = some a →
      ([some (1 : Int), some 5])[0]? = some b → 0 < natCmp a b) ∧
    (∀ o a v, hdStep natCmp [some (1 : Int), some 5] 0 ≠ 0 →
      (o = GetLeftChild 0 ∨ o = GetRightChild 0) →
      o ≠ hdStep natCmp [some (1 : Int), some 5] 0 →
      ([some (1 : Int), some 5])[hdStep natCmp [some (1 : Int), some 5] 0]?
        = some a →
      ([some (1 : Int), some 5])[o]? = some v → natCmp v a ≤ 0) ∧
    (hdStep natCmp [some (1 : Int), some 5] 0 = 0 ↔
      ∀ c a b, (c = GetLeftChild 0 ∨ c = GetRightChild 0) →
        ([some (1 : Int), some 5])[c]? = some a →
        ([some (1 : Int), some 5])[0]? = some b → natCmp a b ≤ 0) :=
  claim5_sift_down_choice natCmp (fun a => a.getD 0) natCmp_rank
    [some 1, some 5] 0

/-- C6: `HeapUpdatePriority` returns `false` on an absent handle, an
empty heap, or a `NULL` payload reference; it locates the target by an
identity scan (its success bit is independent of the stored oracle); and
on a reference not present among the live slots it returns `false` with
the heap state completely unchanged. -/
theorem claim6_update_errors {β γ : Type} [DecidableEq β] (h : Heap β γ)
    (d : Option β) (x : β) :
    HeapUpdatePriority (none : Option (Heap β γ)) d = (false, none) ∧
    (h.data = [] → HeapUpdatePriority (some h) d = (false, some h)) ∧
    HeapUpdatePriority (some h) none = (false, some h) ∧
    (some x ∉ h.data →
      HeapUpdatePriority (some h) (some x) = (false, some h)) ∧
    (∀ cmp' : Option β → Option β → Int,
      (HeapUpdatePriority (some { h with cmpFn := cmp' }) d).1
        = (HeapUpdatePriority (some h) d).1) := by
  refine ⟨rfl, fun hd => heapUpdate_empty hd d, heapUpdate_null h, ?_, ?_⟩
  · intro hmem
    have hnf : h.data.findIdx? (· = some x) = none := by
      rw [List.findIdx?_eq_none_iff]
      intro y hy
      exact decide_eq_false (fun hyx => hmem (hyx ▸ hy))
    exact heapUpdate_notfound hnf
  · intro cmp'
    rcases d with _ | y
    · rfl
    · rcases hf : h.data.findIdx? (· = some y) with _ | t
      · rw [heapUpdate_notfound hf,
          heapUpdate_notfound (show ({ h with cmpFn := cmp' } :
            Heap β γ).data.findIdx? (· = some y) = none from hf)]
      · rw [heapUpdate_found hf,
          heapUpdate_found (show ({ h with cmpFn := cmp' } :
            Heap β γ).data.findIdx? (· = some y) = some t from hf)]

/-- C6 (witness): the theorem applied to a concrete one-element heap and
the absent reference 2. -/
theorem claim6_witness :
    HeapUpdatePriority (none : Option (Heap Int Unit)) (some 2)
      = (false, none) ∧
    ((mkHeap natCmp [some 1] 4).data = [] →
      HeapUpdatePriority (some (mkHeap natCmp [some 1] 4)) (some 2)
        = (false, some (mkHeap natCmp [some 1] 4))) ∧
    HeapUpdatePriority (some (mkHeap natCmp [some 1] 4)) none
      = (false, some (mkHeap natCmp [some 1] 4)) ∧
    (some (2 : Int) ∉ (mkHeap natCmp [some 1] 4).data →
      HeapUpdatePriority (some (mkHeap natCmp [some 1] 4)) (some 2)
        = (false, some (mkHeap natCmp [some 1] 4))) ∧
    (∀ cmp' : Option Int → Option Int → Int,
      (HeapUpdatePriority
        (some { mkHeap natCmp [some 1] 4 with cmpFn := cmp' }) (some 2)).1
        = (HeapUpdatePriority (some (mkHeap natCmp [some 1] 4))
            (some 2)).1) :=
  claim6_update_errors (mkHeap natCmp [some 1] 4) (some 2) 2

/-- C8: over every reachable heap the size never exceeds the capacity;
every public operation leaves the capacity the same or larger; after `k`
inserts on a fresh heap `HeapSize` reports `k`, and after `m ≤ k`
further extractions it reports `k - m`; `HeapSize` reports `-1` exactly
for the absent handle. -/
theorem claim8_shape {β γ : Type} [DecidableEq β] :
    (∀ h : Heap β γ, Reach h → h.data.length ≤ h.capacity) ∧
    (∀ (h h' : Heap β γ) (d : Option β) (ok b : Bool),
      HeapInsert (some h) d ok = (b, some h') →
        h.capacity ≤ h'.capacity) ∧
    (∀ (h h' : Heap β γ) (v : Option β),
      HeapExtract (some h) = (v, some h') → h.capacity ≤ h'.capacity) ∧
    (∀ (h h' : Heap β γ) (d : Option β) (b : Bool),
      HeapUpdatePriority (some h) d = (b, some h') →
        h.capacity ≤ h'.capacity) ∧
    (∀ (capacity : Int) (cmp : Option β → Option β → Int) (f : γ)
      (h0 : Heap β γ) (xs : List (Option β)),
      HeapCreate capacity (some cmp) f = some h0 →
      ∃ h', insertAll (some h0) xs = some h' ∧
        HeapSize (some h') = xs.length ∧
        ∀ m, m ≤ xs.length →
          ∃ out h'', extractN (some h') m = (out, some h'') ∧
            HeapSize (some h'') = ((xs.length - m : Nat) : Int)) ∧
    HeapSize (none : Option (Heap β γ)) = -1 := by
  refine ⟨?_, ?_, ?_, ?_, ?_, rfl⟩
  · exact fun h hr => (reach_invariant hr).1
  · intro h h' d ok b he
    rcases heapInsert_out he with ⟨_, _, _, _, hcaps⟩ | ⟨_, rfl⟩
    · rcases hcaps with ⟨_, hcap⟩ | ⟨_, hcap⟩ <;> omega
    · exact le_refl _
  · intro h h' v he
    exact le_of_eq (heapExtract_out he).2.2.1.symm
  · intro h h' d b he
    exact le_of_eq (heapUpdate_out he).2.2.1.symm
  · intro capacity cmp f h0 xs hcr
    obtain ⟨hd0, _, _, _⟩ := heapCreate_some hcr
    obtain ⟨h', hins, hlen, _, _⟩ := insertAll_length xs h0
    refine ⟨h', hins, ?_, ?_⟩
    · show (h'.data.length : Int) = xs.length
      rw [hlen, hd0]
      simp
    · intro m hm
      obtain ⟨out, h'', hext, _, hdl, _⟩ := extractN_length m h'
        (by rw [hlen, hd0]; simpa using hm)
      refine ⟨out, h'', hext, ?_⟩
      show (h''.data.length : Int) = ((xs.length - m : Nat) : Int)
      rw [hdl, hlen, hd0]
      simp

end HeapC
